import Mathlib

/-!
Verification of the flood-memory persistent node/link store (src/store.py,
class MemoryStore) against its specification.

Modelling conventions (shallow embedding):

* A node record mirrors one row of the SQLite table nodes; the tags and
  links columns (JSON-encoded lists in the source) are Lean lists.
* Node ids are natural numbers.  The source draws fresh ids from
  uuid.uuid4() and relies on their freshness; the model makes freshness
  explicit with a counter nextId, every id ever handed out being below it.
* Timestamps are natural numbers; each operation that reads the clock
  (datetime.now in the source) receives the current instant as the
  argument now.
* The SQLite statements become list operations on Store.nodes:
  SELECT ... WHERE id = ? is List.find?, UPDATE ... WHERE id = ? maps the
  matching rows, INSERT appends a row, DELETE ... WHERE id = ? filters the
  matching rows out.  Rows keep table order, so the unordered
  SELECT * FROM nodes of recall is read in insertion order, one of the
  orders the spec allows.
* Python list.remove(x) removes the first occurrence only, hence
  List.erase below.
* update iterates over the Python sets old_links - new_links and
  new_links - old_links; set iteration order is unspecified, and the
  per-neighbour writes target pairwise distinct rows, so any fixed
  enumeration of the distinct elements is faithful; the model enumerates
  them with List.dedup and List.filter.
* The full-text engine (SQLite FTS5) is external to the repository.  Its
  relevance-ranked answer is an oracle parameter of recall, and the
  fragment of the FTS5 query syntax needed to judge the sanitizer
  (_sanitize_fts_query) is modelled separately below from the documented
  FTS5 rules: a double-quoted string is one literal phrase, an embedded
  double quote must be written as two consecutive double quotes, anything
  else is a bare token.
-/

/-- One row of the nodes table (src/store.py, _init_db / _node_to_dict). -/
structure Node where
  id : Nat
  content : String
  tags : List String
  links : List Nat
  source : String
  createdAt : Nat
  lastAccessed : Nat
  accessCount : Nat
deriving Repr, DecidableEq

/-- The database state: the rows of the nodes table in table order, plus
the fresh-id counter standing for uuid freshness. -/
structure Store where
  nodes : List Node
  nextId : Nat
deriving Repr, DecidableEq

/-- The empty database right after _init_db. -/
def initStore : Store := { nodes := [], nextId := 0 }

/-- MemoryStore._get_node: SELECT * FROM nodes WHERE id = ?. -/
def getNode (s : Store) (i : Nat) : Option Node :=
  s.nodes.find? (fun n => n.id == i)

/-- UPDATE nodes SET ... WHERE id = ?: apply f to every row whose id is i. -/
def updateRow (s : Store) (i : Nat) (f : Node → Node) : Store :=
  { s with nodes := s.nodes.map (fun n => if n.id = i then f n else n) }

/-- MemoryStore._add_back_link: append source to target's link list unless
already present; no-op when target does not exist. -/
def addBackLink (s : Store) (target source : Nat) : Store :=
  match getNode s target with
  | none => s
  | some node =>
    if source ∈ node.links then s
    else updateRow s target (fun n => { n with links := node.links ++ [source] })

/-- MemoryStore._remove_back_link: remove the first occurrence of source
from target's link list when present; no-op when target does not exist. -/
def removeBackLink (s : Store) (target source : Nat) : Store :=
  match getNode s target with
  | none => s
  | some node =>
    if source ∈ node.links then
      updateRow s target (fun n => { n with links := node.links.erase source })
    else s

/-- Row transformation performed by one access bump of _update_access:
set last_accessed to the current time, increment access_count by one. -/
def bump (now : Nat) (n : Node) : Node :=
  { n with lastAccessed := now, accessCount := n.accessCount + 1 }

/-- MemoryStore._update_access: bump each listed id's row. -/
def updateAccess (s : Store) (now : Nat) (ids : List Nat) : Store :=
  ids.foldl (fun st i => updateRow st i (bump now)) s

/-- MemoryStore.remember: validate the requested links against the store
before the insert (ids that do not resolve are dropped), insert the new
row with access_count 0, then add a back-link to every validated
neighbour, and return the re-read row. -/
def remember (s : Store) (now : Nat) (content : String) (tags : List String)
    (links : List Nat) (source : String) : Store × Option Node :=
  let nodeId := s.nextId
  let validLinks := links.filter (fun l => (getNode s l).isSome)
  let newNode : Node :=
    { id := nodeId, content := content, tags := tags, links := validLinks,
      source := source, createdAt := now, lastAccessed := now, accessCount := 0 }
  let s1 : Store := { nodes := s.nodes ++ [newNode], nextId := s.nextId + 1 }
  let s2 := validLinks.foldl (fun st l => addBackLink st l nodeId) s1
  (s2, getNode s2 nodeId)

/-- MemoryStore.forget: remove the node's id from every neighbour named in
its own link list, then delete its row; None when the id is unknown. -/
def forget (s : Store) (i : Nat) : Store × Option Nat :=
  match getNode s i with
  | none => (s, none)
  | some node =>
    let s1 := node.links.foldl (fun st l => removeBackLink st l i) s
    (⟨s1.nodes.filter (fun n => n.id != i), s1.nextId⟩, some i)

/-- The two leading UPDATE statements of MemoryStore.update: re-write
content when given, then tags when given. -/
def ctStage (s : Store) (i : Nat) (content? : Option String)
    (tags? : Option (List String)) : Store :=
  let s1 := match content? with
    | none => s
    | some c => updateRow s i (fun n => { n with content := c })
  match tags? with
  | none => s1
  | some tg => updateRow s1 i (fun n => { n with tags := tg })

/-- Row-level effect of ctStage on the targeted row. -/
def ctFun (content? : Option String) (tags? : Option (List String)) (n : Node) : Node :=
  let n1 := match content? with
    | none => n
    | some c => { n with content := c }
  match tags? with
  | none => n1
  | some tg => { n1 with tags := tg }

/-- The validated replacement link list of MemoryStore.update: the
requested ids minus the node's own id and the ids that do not resolve. -/
def validNew (s : Store) (i : Nat) (req : List Nat) : List Nat :=
  req.filter (fun l => l != i && (getNode s l).isSome)

/-- The distinct elements of old_links - new_links, the neighbours whose
back-link is removed. -/
def removedSet (node : Node) (v : List Nat) : List Nat :=
  node.links.dedup.filter (fun l => !v.contains l)

/-- The distinct elements of new_links - old_links, the neighbours that
receive a back-link. -/
def addedSet (node : Node) (v : List Nat) : List Nat :=
  v.dedup.filter (fun l => !node.links.contains l)

/-- MemoryStore.update: re-write content and tags when given; when a
replacement link list is given, drop the node's own id and unresolved ids
from it, remove the back-link from every neighbour leaving the link set,
add one to every neighbour entering it, overwrite the node's own list with
the validated replacement, and return the re-read row.  None when the id
is unknown. -/
def update (s : Store) (i : Nat) (content? : Option String)
    (tags? : Option (List String)) (links? : Option (List Nat)) : Store × Option Node :=
  match getNode s i with
  | none => (s, none)
  | some node =>
    let s2 := ctStage s i content? tags?
    let s3 := match links? with
      | none => s2
      | some req =>
        let v := validNew s2 i req
        let s2a := (removedSet node v).foldl (fun st t => removeBackLink st t i) s2
        let s2b := (addedSet node v).foldl (fun st t => addBackLink st t i) s2a
        updateRow s2b i (fun n => { n with links := v })
    (s3, getNode s3 i)

/-- Worker for Python str.split(): runs of whitespace separate tokens and
no empty token is produced. -/
def pyTokensGo (acc : List Char) : List Char → List String
  | [] => if acc = [] then [] else [⟨acc⟩]
  | c :: rest =>
    if c.isWhitespace then
      if acc = [] then pyTokensGo [] rest else ⟨acc⟩ :: pyTokensGo [] rest
    else pyTokensGo (acc ++ [c]) rest

/-- Python str.split(): whitespace-separated tokens, empties dropped. -/
def pyTokens (q : String) : List String :=
  pyTokensGo [] q.data

/-- Python " ".join(...). -/
def joinSpace : List String → String
  | [] => ""
  | [t] => t
  | t :: ts => t ++ " " ++ joinSpace ts

/-- MemoryStore._sanitize_fts_query: wrap every whitespace-separated token
of the query in double quotes and rejoin with single spaces. -/
def sanitizeFtsQuery (q : String) : String :=
  joinSpace ((pyTokens q).map (fun t => "\"" ++ t ++ "\""))

/-- Python candidates[:limit]: a nonnegative limit keeps the first limit
elements, a negative limit drops the last |limit| elements. -/
def pySliceTo {α : Type} (l : List α) (limit : Int) : List α :=
  if 0 ≤ limit then l.take limit.toNat
  else l.take (l.length - (-limit).toNat)

/-- Step 1 of MemoryStore.recall: the candidate rows, from the
full-text oracle for a non-empty query (in the source, the
nodes_fts MATCH ... ORDER BY rank join, relevance-ranked), otherwise all
rows in table order. -/
def baseCandidates (s : Store) (fts : String → List Node) (query : String) : List Node :=
  if query ≠ "" then fts (sanitizeFtsQuery query) else s.nodes

/-- Steps 1 and 2 of recall: the candidates, filtered, when tags are
requested, to the rows whose tag list contains every requested tag. -/
def recallCandidates (s : Store) (fts : String → List Node) (query : String)
    (tags : List String) : List Node :=
  if tags ≠ [] then
    (baseCandidates s fts query).filter (fun n => tags.all (fun t => n.tags.contains t))
  else baseCandidates s fts query

/-- MemoryStore.recall: empty result when both query and tags are empty;
otherwise the candidate pipeline is cut to limit, the survivors' access
statistics are bumped, and the rows are re-read. -/
def «recall» (s : Store) (fts : String → List Node) (query : String)
    (tags : List String) (limit : Int) (now : Nat) : Store × List (Option Node) :=
  if query = "" ∧ tags = [] then (s, [])
  else
    let results := pySliceTo (recallCandidates s fts query tags) limit
    let ids := results.map (fun n => n.id)
    let s1 := updateAccess s now ids
    (s1, ids.map (getNode s1))

/-- Ids mentioned by any link list of the store; every id the traversal
can enqueue beyond its start lies in this list. -/
def linkIds (s : Store) : List Nat :=
  s.nodes.flatMap (fun n => n.links)

/-- One round of the inner for-loop of MemoryStore.connections: walk the
current node's links, and enqueue (and mark visited) each id not yet
visited, at depth d1. -/
def enqueueNew (links : List Nat) (d1 : Nat) (visited : List Nat)
    (queue : List (Nat × Nat)) : List Nat × List (Nat × Nat) :=
  links.foldl
    (fun vq l => if l ∈ vq.1 then vq else (vq.1 ++ [l], vq.2 ++ [(l, d1)]))
    (visited, queue)

/-- Every id enqueueNew adds was unvisited, comes from links, and is added
to both outputs in step; the added ids are pairwise distinct. -/
theorem enqueueNew_spec (links : List Nat) (d1 : Nat) :
    ∀ visited queue, ∃ fresh : List Nat,
      (enqueueNew links d1 visited queue).1 = visited ++ fresh ∧
      (enqueueNew links d1 visited queue).2 = queue ++ fresh.map (fun l => (l, d1)) ∧
      fresh.Nodup ∧ (∀ x ∈ fresh, x ∉ visited ∧ x ∈ links) := by
  induction links with
  | nil =>
    intro visited queue
    exact ⟨[], by simp [enqueueNew]⟩
  | cons a links ih =>
    intro visited queue
    by_cases ha : a ∈ visited
    · obtain ⟨fresh, h1, h2, h3, h4⟩ := ih visited queue
      refine ⟨fresh, ?_, ?_, h3,
        fun x hx => ⟨(h4 x hx).1, List.mem_cons_of_mem a (h4 x hx).2⟩⟩
      · simpa [enqueueNew, ha] using h1
      · simpa [enqueueNew, ha] using h2
    · obtain ⟨fresh, h1, h2, h3, h4⟩ := ih (visited ++ [a]) (queue ++ [(a, d1)])
      have hafresh : a ∉ fresh := fun hmem => (h4 a hmem).1 (by simp)
      refine ⟨a :: fresh, ?_, ?_, List.nodup_cons.mpr ⟨hafresh, h3⟩, ?_⟩
      · rw [show visited ++ a :: fresh = (visited ++ [a]) ++ fresh by simp]
        simpa [enqueueNew, ha] using h1
      · have hq : queue ++ List.map (fun l => (l, d1)) (a :: fresh)
            = (queue ++ [(a, d1)]) ++ List.map (fun l => (l, d1)) fresh := by simp
        rw [hq]
        simpa [enqueueNew, ha] using h2
      · intro x hx
        rcases List.mem_cons.mp hx with rfl | hx
        · exact ⟨ha, List.mem_cons_self _ _⟩
        · exact ⟨fun hv => (h4 x hx).1 (List.mem_append_left _ hv),
            List.mem_cons_of_mem a (h4 x hx).2⟩

/-- The node a queue entry names, when it exists, is a row of the store,
so its links sit inside linkIds. -/
theorem links_subset_linkIds (s : Store) (i : Nat) (n : Node)
    (h : getNode s i = some n) : ∀ l ∈ n.links, l ∈ linkIds s := by
  intro l hl
  have hmem : n ∈ s.nodes := List.mem_of_find?_eq_some h
  simp only [linkIds, List.mem_flatMap]
  exact ⟨n, hmem, hl⟩

/-- The while-loop of MemoryStore.connections: pop the queue head, skip it
when its row vanished, record it in visit order, and when it sits strictly
below the depth bound enqueue its unvisited neighbours one level deeper. -/
def bfsLoop (s : Store) (depth : Nat) (queue : List (Nat × Nat))
    (visited : List Nat) (order : List (Nat × Nat)) : List (Nat × Nat) :=
  match queue with
  | [] => order
  | (cid, cd) :: rest =>
    match hn : getNode s cid with
    | none => bfsLoop s depth rest visited order
    | some node =>
      if cd < depth then
        let vq := enqueueNew node.links (cd + 1) visited rest
        bfsLoop s depth vq.2 vq.1 (order ++ [(cid, cd)])
      else
        bfsLoop s depth rest visited (order ++ [(cid, cd)])
termination_by 2 * ((linkIds s).toFinset \ visited.toFinset).card + queue.length
decreasing_by
  · simp only [List.length_cons]
    omega
  · obtain ⟨fresh, h1, h2, h3, h4⟩ := enqueueNew_spec node.links (cd + 1) visited rest
    have hsub : fresh.toFinset ⊆ (linkIds s).toFinset \ visited.toFinset := by
      intro x hx
      rw [List.mem_toFinset] at hx
      rw [Finset.mem_sdiff, List.mem_toFinset, List.mem_toFinset]
      exact ⟨links_subset_linkIds s cid node hn x (h4 x hx).2, (h4 x hx).1⟩
    have hset : (linkIds s).toFinset \ (visited ++ fresh).toFinset =
        ((linkIds s).toFinset \ visited.toFinset) \ fresh.toFinset := by
      ext x
      simp only [Finset.mem_sdiff, List.mem_toFinset, List.mem_append]
      tauto
    have hcard : ((linkIds s).toFinset \ (visited ++ fresh).toFinset).card =
        ((linkIds s).toFinset \ visited.toFinset).card - fresh.length := by
      rw [hset, Finset.card_sdiff hsub, List.toFinset_card_of_nodup h3]
    have hle : fresh.length ≤ ((linkIds s).toFinset \ visited.toFinset).card := by
      calc fresh.length = fresh.toFinset.card := (List.toFinset_card_of_nodup h3).symm
        _ ≤ _ := Finset.card_le_card hsub
    simp only [h1, h2, List.length_append, List.length_map, List.length_cons, hcard]
    omega
  · simp only [List.length_cons]
    omega

/-- MemoryStore.connections: None when the start is unknown; otherwise run
the breadth-first loop from the start at distance 0, bump the access
statistics of every visited id, and return the re-read rows paired with
their recorded distances. -/
def connections (s : Store) (nodeId : Nat) (depth : Nat) (now : Nat) :
    Store × Option (List (Node × Nat)) :=
  match getNode s nodeId with
  | none => (s, none)
  | some _ =>
    let order := bfsLoop s depth [(nodeId, 0)] [nodeId] []
    let ids := order.map (fun p => p.1)
    let s1 := updateAccess s now ids
    (s1, some (order.filterMap (fun p => (getNode s1 p.1).map (fun n => (n, p.2)))))

/-- A lexical element of an FTS5 MATCH expression.  Modelled from the
documented FTS5 query syntax (the engine is external to the repository):
a double-quoted string is one literal phrase, everything else is a bare
token that the query language may interpret (operators, NEAR, column
filters, and so on). -/
inductive QueryItem where
  | phrase (text : String)
  | bareTok (text : String)
deriving Repr, DecidableEq

/-- Lexer mode: at top level, inside a double-quoted string, or inside a
bare token. -/
inductive LexState where
  | top : LexState
  | str : List Char → LexState
  | bare : List Char → LexState

/-- Lexer for the fragment of FTS5 query syntax relevant to the
sanitizer, modelled from the documented FTS5 rules: strings are delimited
by double quotes and an embedded double quote is written as two
consecutive double quotes; an unterminated string is a syntax error
(none). -/
def ftsLexGo : LexState → List Char → Option (List QueryItem)
  | .top, [] => some []
  | .top, c :: rest =>
    if c.isWhitespace then ftsLexGo .top rest
    else if c = '"' then ftsLexGo (.str []) rest
    else ftsLexGo (.bare [c]) rest
  | .str _, [] => none
  | .str acc, '"' :: '"' :: rest => ftsLexGo (.str (acc ++ ['"'])) rest
  | .str acc, '"' :: rest => (ftsLexGo .top rest).map (fun items => .phrase ⟨acc⟩ :: items)
  | .str acc, c :: rest => ftsLexGo (.str (acc ++ [c])) rest
  | .bare acc, [] => some [.bareTok ⟨acc⟩]
  | .bare acc, c :: rest =>
    if c.isWhitespace then (ftsLexGo .top rest).map (fun items => .bareTok ⟨acc⟩ :: items)
    else if c = '"' then (ftsLexGo (.str []) rest).map (fun items => .bareTok ⟨acc⟩ :: items)
    else ftsLexGo (.bare (acc ++ [c])) rest

/-- Lex a whole FTS5 MATCH expression. -/
def ftsLex (q : String) : Option (List QueryItem) :=
  ftsLexGo .top q.data

/-- The table's primary-key property: row ids are pairwise distinct. -/
def IdsNodup (s : Store) : Prop := (s.nodes.map Node.id).Nodup

/-- Freshness of the id counter: every stored id is below nextId. -/
def IdsBelow (s : Store) : Prop := ∀ n ∈ s.nodes, n.id < s.nextId

/-- Every stored link list is duplicate-free. -/
def LinksNodup (s : Store) : Prop := ∀ n ∈ s.nodes, n.links.Nodup

/-- Invariant I3 of the spec: no node links to itself. -/
def NoSelfLinks (s : Store) : Prop := ∀ n ∈ s.nodes, n.id ∉ n.links

/-- Invariant I2 of the spec: every linked id resolves to a row. -/
def NoDangling (s : Store) : Prop :=
  ∀ n ∈ s.nodes, ∀ l ∈ n.links, (getNode s l).isSome = true

/-- Invariant I1 of the spec: links are symmetric. -/
def SymLinks (s : Store) : Prop :=
  ∀ n ∈ s.nodes, ∀ m ∈ s.nodes, m.id ∈ n.links → n.id ∈ m.links

/-- Well-formedness of a store state: the structural table properties
plus the spec's invariants I1-I3. -/
def WF (s : Store) : Prop :=
  IdsNodup s ∧ IdsBelow s ∧ LinksNodup s ∧ NoSelfLinks s ∧ NoDangling s ∧ SymLinks s

instance (s : Store) : Decidable (IdsNodup s) := by unfold IdsNodup; infer_instance

instance (s : Store) : Decidable (IdsBelow s) := by unfold IdsBelow; infer_instance

instance (s : Store) : Decidable (LinksNodup s) := by unfold LinksNodup; infer_instance

instance (s : Store) : Decidable (NoSelfLinks s) := by unfold NoSelfLinks; infer_instance

instance (s : Store) : Decidable (NoDangling s) := by unfold NoDangling; infer_instance

instance (s : Store) : Decidable (SymLinks s) := by unfold SymLinks; infer_instance

instance (s : Store) : Decidable (WF s) := by unfold WF; infer_instance

/-- A store holding one node, id 0. -/
def exA : Store := (remember initStore 0 "node A" [] [] "").1

/-- Two unlinked nodes, ids 0 and 1. -/
def exAB : Store := (remember exA 1 "node B" [] [] "").1

/-- Node 1 updated with the duplicated link request [0, 0]: node 1 stores
the duplicate list [0, 0] and node 0 gains the back-link [1]. -/
def exDup : Store := (update exAB 1 none none (some [0, 0])).1

/-- Node 0 then updated to drop all links: the single removeBackLink
erases only one of node 1's two copies of 0. -/
def exDupDrop : Store := (update exDup 0 none none (some [])).1

/-- Chain store A-B-C-D of the spec's BFS test: each creation links to the
previous node, back-links make the chain undirected.  Ids 0, 1, 2, 3. -/
def chainA : Store := (remember initStore 0 "A" [] [] "").1

/-- Second chain node. -/
def chainB : Store := (remember chainA 1 "B" [] [0] "").1

/-- Third chain node. -/
def chainC : Store := (remember chainB 2 "C" [] [1] "").1

/-- Full chain store. -/
def chainD : Store := (remember chainC 3 "D" [] [2] "").1

/-- The spec's recall example: nodes tagged [python, testing],
[python, web], [rust], ids 0, 1, 2. -/
def tagStore : Store :=
  (remember ((remember ((remember initStore 0 "Tip 1" ["python", "testing"] [] "").1)
      1 "Tip 2" ["python", "web"] [] "").1)
    2 "Tip 3" ["rust"] [] "").1

/-- Unfolding law of the traversal loop: empty queue. -/
theorem bfsLoop_nil (s : Store) (d : Nat) (v : List Nat) (o : List (Nat × Nat)) :
    bfsLoop s d [] v o = o := by
  rw [bfsLoop.eq_def]

/-- Unfolding law of the traversal loop: vanished row is skipped. -/
theorem bfsLoop_cons_none (s : Store) (d cid cd : Nat) (rest : List (Nat × Nat))
    (v : List Nat) (o : List (Nat × Nat)) (h : getNode s cid = none) :
    bfsLoop s d ((cid, cd) :: rest) v o = bfsLoop s d rest v o := by
  rw [bfsLoop.eq_def]
  dsimp only
  split
  · rfl
  · rename_i node hn
    rw [h] at hn
    cases hn

/-- Unfolding law of the traversal loop: a node strictly below the depth
bound is recorded and its unvisited neighbours are enqueued. -/
theorem bfsLoop_cons_lt (s : Store) (d cid cd : Nat) (rest : List (Nat × Nat))
    (v : List Nat) (o : List (Nat × Nat)) (node : Node)
    (h : getNode s cid = some node) (hlt : cd < d) :
    bfsLoop s d ((cid, cd) :: rest) v o =
      bfsLoop s d (enqueueNew node.links (cd + 1) v rest).2
        (enqueueNew node.links (cd + 1) v rest).1 (o ++ [(cid, cd)]) := by
  rw [bfsLoop.eq_def]
  dsimp only
  split
  · rename_i hn
    rw [h] at hn
    cases hn
  · rename_i node' hn
    rw [h] at hn
    injection hn with hnn
    subst hnn
    simp [hlt]

/-- Unfolding law of the traversal loop: a node at the depth bound is
recorded but not expanded. -/
theorem bfsLoop_cons_ge (s : Store) (d cid cd : Nat) (rest : List (Nat × Nat))
    (v : List Nat) (o : List (Nat × Nat)) (node : Node)
    (h : getNode s cid = some node) (hge : ¬ cd < d) :
    bfsLoop s d ((cid, cd) :: rest) v o = bfsLoop s d rest v (o ++ [(cid, cd)]) := by
  rw [bfsLoop.eq_def]
  dsimp only
  split
  · rename_i hn
    rw [h] at hn
    cases hn
  · rename_i node' hn
    rw [h] at hn
    injection hn with hnn
    subst hnn
    simp [hge]

/-- Unconditional one-step unfolding of the traversal loop, convenient
for evaluating concrete states. -/
theorem bfsLoop_cons (s : Store) (d cid cd : Nat) (rest : List (Nat × Nat))
    (v : List Nat) (o : List (Nat × Nat)) :
    bfsLoop s d ((cid, cd) :: rest) v o =
      match getNode s cid with
      | none => bfsLoop s d rest v o
      | some node =>
        if cd < d then
          bfsLoop s d (enqueueNew node.links (cd + 1) v rest).2
            (enqueueNew node.links (cd + 1) v rest).1 (o ++ [(cid, cd)])
        else bfsLoop s d rest v (o ++ [(cid, cd)]) := by
  cases hg : getNode s cid with
  | none => rw [bfsLoop_cons_none s d cid cd rest v o hg]
  | some node =>
    by_cases hlt : cd < d
    · rw [bfsLoop_cons_lt s d cid cd rest v o node hg hlt]
      simp [hlt]
    · rw [bfsLoop_cons_ge s d cid cd rest v o node hg hlt]
      simp [hlt]

/-- A row found by getNode is a stored row carrying the looked-up id. -/
theorem getNode_mem {s : Store} {i : Nat} {n : Node} (h : getNode s i = some n) :
    n ∈ s.nodes ∧ n.id = i := by
  refine ⟨List.mem_of_find?_eq_some h, ?_⟩
  simpa using List.find?_some h

/-- getNode misses exactly when no row carries the id. -/
theorem getNode_eq_none {s : Store} {i : Nat} :
    getNode s i = none ↔ ∀ n ∈ s.nodes, n.id ≠ i := by
  simp [getNode, List.find?_eq_none]

/-- Auxiliary form of mem_getNode over a bare row list. -/
theorem find_of_mem_nodup : ∀ {l : List Node}, (l.map Node.id).Nodup →
    ∀ {n : Node}, n ∈ l → l.find? (fun m => m.id == n.id) = some n := by
  intro l
  induction l with
  | nil => intro _ n hn; cases hn
  | cons a l ih =>
    intro hs n hn
    rcases List.mem_cons.mp hn with rfl | hmem
    · simp [List.find?_cons]
    · have ha : ¬ (a.id == n.id) = true := by
        simp only [beq_iff_eq]
        intro he
        exact (List.nodup_cons.mp (by simpa using hs)).1
          (he ▸ List.mem_map_of_mem Node.id hmem)
      have ha' : (a.id == n.id) = false := by
        simpa using ha
      simp only [List.find?_cons, ha', cond_false]
      exact ih (List.nodup_cons.mp (by simpa using hs)).2 hmem

/-- With pairwise distinct ids, every stored row is the row its id finds. -/
theorem mem_getNode {s : Store} (hs : IdsNodup s) {n : Node} (hn : n ∈ s.nodes) :
    getNode s n.id = some n :=
  find_of_mem_nodup hs hn

/-- The id map of the table is untouched by updateRow when the row
function preserves ids. -/
theorem updateRow_map_id (s : Store) (i : Nat) (f : Node → Node)
    (hf : ∀ n, (f n).id = n.id) :
    (updateRow s i f).nodes.map Node.id = s.nodes.map Node.id := by
  unfold updateRow
  rw [List.map_map]
  apply List.map_congr_left
  intro n _
  by_cases h : n.id = i <;> simp [h, hf]

theorem updateRow_nextId (s : Store) (i : Nat) (f : Node → Node) :
    (updateRow s i f).nextId = s.nextId := rfl

/-- getNode after updateRow: the looked-up row goes through f exactly
when it is the targeted id. -/
theorem getNode_updateRow (s : Store) (i : Nat) (f : Node → Node)
    (hf : ∀ n, (f n).id = n.id) (j : Nat) :
    getNode (updateRow s i f) j = if j = i then (getNode s j).map f else getNode s j := by
  unfold getNode updateRow
  rw [List.find?_map]
  have hcomp : ((fun n : Node => n.id == j) ∘ (fun n => if n.id = i then f n else n))
      = (fun n : Node => n.id == j) := by
    funext n
    by_cases h : n.id = i <;> simp [Function.comp, h, hf]
  rw [hcomp]
  cases hfind : s.nodes.find? (fun n => n.id == j) with
  | none => simp
  | some n =>
    have hid : n.id = j := by simpa using List.find?_some hfind
    by_cases hji : j = i
    · subst hji
      simp [hid]
    · simp [hid, hji]

/-- Row transformation performed by one _add_back_link with source src. -/
def fAdd (src : Nat) (n : Node) : Node :=
  if src ∈ n.links then n else { n with links := n.links ++ [src] }

/-- Row transformation performed by one _remove_back_link with source src. -/
def fRem (src : Nat) (n : Node) : Node :=
  if src ∈ n.links then { n with links := n.links.erase src } else n

theorem fAdd_id (src : Nat) (n : Node) : (fAdd src n).id = n.id := by
  unfold fAdd
  split <;> rfl

theorem fRem_id (src : Nat) (n : Node) : (fRem src n).id = n.id := by
  unfold fRem
  split <;> rfl

theorem fAdd_mem (src : Nat) (n : Node) : src ∈ (fAdd src n).links := by
  unfold fAdd
  split <;> simp_all

theorem fAdd_idem (src : Nat) (n : Node) : fAdd src (fAdd src n) = fAdd src n := by
  unfold fAdd
  by_cases h : src ∈ n.links <;> simp [h]

/-- Pointwise effect of _add_back_link on every lookup. -/
theorem getNode_addBackLink (s : Store) (t src j : Nat) :
    getNode (addBackLink s t src) j =
      if j = t then (getNode s j).map (fAdd src) else getNode s j := by
  unfold addBackLink
  cases hg : getNode s t with
  | none =>
    by_cases hjt : j = t
    · subst hjt
      simp [hg]
    · simp [hjt]
  | some node =>
    by_cases hmem : src ∈ node.links
    · by_cases hjt : j = t
      · subst hjt
        simp [hmem, hg, fAdd]
      · simp [hmem, hjt]
    · simp only [hmem, if_false]
      have h := getNode_updateRow s t
        (fun n => { n with links := node.links ++ [src] }) (fun n => rfl) j
      rw [h]
      by_cases hjt : j = t
      · subst hjt
        simp [hg, fAdd, hmem]
      · simp [hjt]

/-- Pointwise effect of _remove_back_link on every lookup. -/
theorem getNode_removeBackLink (s : Store) (t src j : Nat) :
    getNode (removeBackLink s t src) j =
      if j = t then (getNode s j).map (fRem src) else getNode s j := by
  unfold removeBackLink
  cases hg : getNode s t with
  | none =>
    by_cases hjt : j = t
    · subst hjt
      simp [hg]
    · simp [hjt]
  | some node =>
    by_cases hmem : src ∈ node.links
    · simp only [hmem, if_true]
      have h := getNode_updateRow s t
        (fun n => { n with links := node.links.erase src }) (fun n => rfl) j
      rw [h]
      by_cases hjt : j = t
      · subst hjt
        simp [hg, fRem, hmem]
      · simp [hjt]
    · by_cases hjt : j = t
      · subst hjt
        simp [hmem, hg, fRem]
      · simp [hmem, hjt]

/-- Pointwise effect of the back-link-adding loop of remember/update;
holds for arbitrary target lists because the add is idempotent. -/
theorem getNode_foldl_add (ts : List Nat) (src : Nat) :
    ∀ (s : Store) (j : Nat),
      getNode (ts.foldl (fun st t => addBackLink st t src) s) j =
        if j ∈ ts then (getNode s j).map (fAdd src) else getNode s j := by
  induction ts with
  | nil => intro s j; simp
  | cons t ts ih =>
    intro s j
    rw [List.foldl_cons, ih]
    by_cases hjts : j ∈ ts
    · by_cases hjt : j = t
      · subst hjt
        have : (fAdd src ∘ fAdd src) = fAdd src := funext (fAdd_idem src)
        simp [hjts, getNode_addBackLink, Option.map_map, this]
      · simp [hjts, hjt, getNode_addBackLink]
    · by_cases hjt : j = t
      · subst hjt
        simp [hjts, getNode_addBackLink]
      · simp [hjts, hjt, getNode_addBackLink]

/-- Pointwise effect of the back-link-removing loop of forget/update, for
pairwise distinct targets. -/
theorem getNode_foldl_rem (ts : List Nat) (src : Nat) :
    ∀ (s : Store) (j : Nat), ts.Nodup →
      getNode (ts.foldl (fun st t => removeBackLink st t src) s) j =
        if j ∈ ts then (getNode s j).map (fRem src) else getNode s j := by
  induction ts with
  | nil => intro s j _; simp
  | cons t ts ih =>
    intro s j hts
    obtain ⟨hnt, hts'⟩ := List.nodup_cons.mp hts
    rw [List.foldl_cons, ih _ _ hts']
    by_cases hjts : j ∈ ts
    · have hjt : j ≠ t := fun h => hnt (h ▸ hjts)
      simp [hjts, hjt, getNode_removeBackLink]
    · by_cases hjt : j = t
      · subst hjt
        simp [hjts, getNode_removeBackLink]
      · simp [hjts, hjt, getNode_removeBackLink]

/-- Pointwise effect of _update_access for pairwise distinct ids: one bump
for every listed id, nothing else touched. -/
theorem getNode_updateAccess (ids : List Nat) (now : Nat) :
    ∀ (s : Store) (j : Nat), ids.Nodup →
      getNode (updateAccess s now ids) j =
        if j ∈ ids then (getNode s j).map (bump now) else getNode s j := by
  induction ids with
  | nil => intro s j _; simp [updateAccess]
  | cons t ts ih =>
    intro s j hts
    obtain ⟨hnt, hts'⟩ := List.nodup_cons.mp hts
    unfold updateAccess at ih ⊢
    rw [List.foldl_cons, ih _ _ hts']
    have hrow := getNode_updateRow s t (bump now) (fun n => rfl) j
    by_cases hjts : j ∈ ts
    · have hjt : j ≠ t := fun h => hnt (h ▸ hjts)
      simp [hjts, hjt, hrow]
    · by_cases hjt : j = t
      · subst hjt
        simp [hjts, hrow]
      · simp [hjts, hjt, hrow]

theorem addBackLink_nextId (s : Store) (t src : Nat) :
    (addBackLink s t src).nextId = s.nextId := by
  unfold addBackLink
  split
  · rfl
  · split <;> rfl

theorem removeBackLink_nextId (s : Store) (t src : Nat) :
    (removeBackLink s t src).nextId = s.nextId := by
  unfold removeBackLink
  split
  · rfl
  · split <;> rfl

theorem foldl_add_nextId (ts : List Nat) (src : Nat) :
    ∀ s : Store, (ts.foldl (fun st t => addBackLink st t src) s).nextId = s.nextId := by
  induction ts with
  | nil => intro s; rfl
  | cons t ts ih =>
    intro s
    rw [List.foldl_cons, ih, addBackLink_nextId]

theorem foldl_rem_nextId (ts : List Nat) (src : Nat) :
    ∀ s : Store, (ts.foldl (fun st t => removeBackLink st t src) s).nextId = s.nextId := by
  induction ts with
  | nil => intro s; rfl
  | cons t ts ih =>
    intro s
    rw [List.foldl_cons, ih, removeBackLink_nextId]

theorem updateAccess_nextId (ids : List Nat) (now : Nat) :
    ∀ s : Store, (updateAccess s now ids).nextId = s.nextId := by
  induction ids with
  | nil => intro s; rfl
  | cons t ts ih =>
    intro s
    unfold updateAccess at ih ⊢
    rw [List.foldl_cons, ih]
    rfl

theorem addBackLink_map_id (s : Store) (t src : Nat) :
    (addBackLink s t src).nodes.map Node.id = s.nodes.map Node.id := by
  unfold addBackLink
  split
  · rfl
  · split
    · rfl
    · exact updateRow_map_id s t _ (fun n => rfl)

theorem removeBackLink_map_id (s : Store) (t src : Nat) :
    (removeBackLink s t src).nodes.map Node.id = s.nodes.map Node.id := by
  unfold removeBackLink
  split
  · rfl
  · split
    · exact updateRow_map_id s t _ (fun n => rfl)
    · rfl

theorem foldl_add_map_id (ts : List Nat) (src : Nat) :
    ∀ s : Store,
      (ts.foldl (fun st t => addBackLink st t src) s).nodes.map Node.id
        = s.nodes.map Node.id := by
  induction ts with
  | nil => intro s; rfl
  | cons t ts ih =>
    intro s
    rw [List.foldl_cons, ih, addBackLink_map_id]

theorem foldl_rem_map_id (ts : List Nat) (src : Nat) :
    ∀ s : Store,
      (ts.foldl (fun st t => removeBackLink st t src) s).nodes.map Node.id
        = s.nodes.map Node.id := by
  induction ts with
  | nil => intro s; rfl
  | cons t ts ih =>
    intro s
    rw [List.foldl_cons, ih, removeBackLink_map_id]

theorem updateAccess_map_id (ids : List Nat) (now : Nat) :
    ∀ s : Store, (updateAccess s now ids).nodes.map Node.id = s.nodes.map Node.id := by
  induction ids with
  | nil => intro s; rfl
  | cons t ts ih =>
    intro s
    unfold updateAccess at ih ⊢
    rw [List.foldl_cons, ih]
    exact updateRow_map_id s t _ (fun n => rfl)

/-- Lookup in a store extended by one appended row. -/
theorem getNode_append (s : Store) (nn : Node) (k j : Nat) :
    getNode ⟨s.nodes ++ [nn], k⟩ j =
      (getNode s j).or (if nn.id = j then some nn else none) := by
  unfold getNode
  rw [List.find?_append]
  by_cases h : nn.id = j <;> simp [List.find?_cons, h]

/-- The row remember inserts, before any back-link write. -/
def freshNode (s : Store) (now : Nat) (c : String) (tg : List String)
    (ls : List Nat) (srcLbl : String) : Node :=
  { id := s.nextId, content := c, tags := tg,
    links := ls.filter (fun l => (getNode s l).isSome), source := srcLbl,
    createdAt := now, lastAccessed := now, accessCount := 0 }

theorem remember_nextId (s : Store) (now : Nat) (c : String) (tg : List String)
    (ls : List Nat) (srcLbl : String) :
    (remember s now c tg ls srcLbl).1.nextId = s.nextId + 1 := by
  unfold remember
  simp only
  rw [foldl_add_nextId]

theorem remember_map_id (s : Store) (now : Nat) (c : String) (tg : List String)
    (ls : List Nat) (srcLbl : String) :
    (remember s now c tg ls srcLbl).1.nodes.map Node.id
      = s.nodes.map Node.id ++ [s.nextId] := by
  unfold remember
  simp only
  rw [foldl_add_map_id]
  simp

/-- Master lookup law for the state remember leaves behind. -/
theorem getNode_remember (s : Store) (now : Nat) (c : String) (tg : List String)
    (ls : List Nat) (srcLbl : String) (j : Nat) :
    getNode (remember s now c tg ls srcLbl).1 j =
      if j ∈ ls.filter (fun l => (getNode s l).isSome) then
        ((getNode s j).or (if s.nextId = j
          then some (freshNode s now c tg ls srcLbl) else none)).map (fAdd s.nextId)
      else
        (getNode s j).or (if s.nextId = j
          then some (freshNode s now c tg ls srcLbl) else none) := by
  unfold remember
  simp only
  rw [getNode_foldl_add]
  have happ := getNode_append s (freshNode s now c tg ls srcLbl) (s.nextId + 1) j
  unfold freshNode at happ ⊢
  rw [happ]


theorem mem_fAdd_links (src a : Nat) (n : Node) :
    a ∈ (fAdd src n).links ↔ a ∈ n.links ∨ a = src := by
  unfold fAdd
  split <;> rename_i h
  · constructor
    · exact Or.inl
    · rintro (ha | rfl)
      · exact ha
      · exact h
  · simp

theorem fAdd_links_sub (src a : Nat) (n : Node) (ha : a ∈ n.links) :
    a ∈ (fAdd src n).links :=
  (mem_fAdd_links src a n).mpr (Or.inl ha)

theorem freshNode_id (s : Store) (now : Nat) (c : String) (tg : List String)
    (ls : List Nat) (srcLbl : String) :
    (freshNode s now c tg ls srcLbl).id = s.nextId := rfl

theorem freshNode_links (s : Store) (now : Nat) (c : String) (tg : List String)
    (ls : List Nat) (srcLbl : String) :
    (freshNode s now c tg ls srcLbl).links
      = ls.filter (fun l => (getNode s l).isSome) := rfl

/-- Row analysis of the state remember leaves: every row is the fresh
node, an old row that received the back-link, or an untouched old row. -/
theorem remember_row_char (s : Store) (hIN : IdsNodup s) (hIB : IdsBelow s)
    (now : Nat) (c : String) (tg : List String) (ls : List Nat) (srcLbl : String) :
    ∀ n ∈ (remember s now c tg ls srcLbl).1.nodes,
      n = freshNode s now c tg ls srcLbl ∨
      ∃ m ∈ s.nodes, m.id = n.id ∧
        ((n = fAdd s.nextId m ∧ n.id ∈ ls.filter (fun l => (getNode s l).isSome))
          ∨ (n = m ∧ n.id ∉ ls.filter (fun l => (getNode s l).isSome))) := by
  have hub : ∀ m ∈ s.nodes, m.id ≠ s.nextId := fun m hm => Nat.ne_of_lt (hIB m hm)
  have hnotin : s.nextId ∉ s.nodes.map Node.id := by
    intro hmem
    obtain ⟨n, hn, hid⟩ := List.mem_map.mp hmem
    exact hub n hn hid
  have hIN' : IdsNodup (remember s now c tg ls srcLbl).1 := by
    unfold IdsNodup
    rw [remember_map_id]
    have hIN0 : (s.nodes.map Node.id).Nodup := hIN
    simp [List.nodup_append, hIN0, hnotin]
  intro n hn
  have hfind := mem_getNode hIN' hn
  rw [getNode_remember] at hfind
  by_cases hmem : n.id ∈ ls.filter (fun l => (getNode s l).isSome)
  · rw [if_pos hmem] at hfind
    have hsome : (getNode s n.id).isSome = true := (List.mem_filter.mp hmem).2
    obtain ⟨m, hm⟩ := Option.isSome_iff_exists.mp hsome
    rw [hm] at hfind
    have hnm : fAdd s.nextId m = n := by simpa using hfind
    exact Or.inr ⟨m, (getNode_mem hm).1, (getNode_mem hm).2, Or.inl ⟨hnm.symm, hmem⟩⟩
  · rw [if_neg hmem] at hfind
    cases hg : getNode s n.id with
    | some m =>
      rw [hg] at hfind
      have hnm : m = n := by simpa using hfind
      exact Or.inr ⟨m, (getNode_mem hg).1, (getNode_mem hg).2, Or.inr ⟨hnm.symm, hmem⟩⟩
    | none =>
      rw [hg] at hfind
      by_cases hid : s.nextId = n.id
      · rw [if_pos hid] at hfind
        have : freshNode s now c tg ls srcLbl = n := by simpa using hfind
        exact Or.inl this.symm
      · rw [if_neg hid] at hfind
        simp at hfind

/-- remember preserves well-formedness when the requested link list is
pairwise distinct. -/
theorem wf_remember (s : Store) (hWF : WF s) (now : Nat) (c : String)
    (tg : List String) (ls : List Nat) (srcLbl : String) (hls : ls.Nodup) :
    WF (remember s now c tg ls srcLbl).1 := by
  obtain ⟨hIN, hIB, hLN, hNS, hND, hSym⟩ := hWF
  have hub : ∀ m ∈ s.nodes, m.id ≠ s.nextId := fun m hm => Nat.ne_of_lt (hIB m hm)
  have hfresh : getNode s s.nextId = none :=
    getNode_eq_none.mpr (fun n hn => hub n hn)
  have hVnotNext : s.nextId ∉ ls.filter (fun l => (getNode s l).isSome) := by
    intro hmem
    have h2 := (List.mem_filter.mp hmem).2
    rw [hfresh] at h2
    simp at h2
  have hnotin : s.nextId ∉ s.nodes.map Node.id := by
    intro hmem
    obtain ⟨n, hn, hid⟩ := List.mem_map.mp hmem
    exact hub n hn hid
  have hIN' : IdsNodup (remember s now c tg ls srcLbl).1 := by
    unfold IdsNodup
    rw [remember_map_id]
    have hIN0 : (s.nodes.map Node.id).Nodup := hIN
    simp [List.nodup_append, hIN0, hnotin]
  have hchar := remember_row_char s hIN hIB now c tg ls srcLbl
  have hex : ∀ l, ((getNode s l).isSome = true ∨ l = s.nextId) →
      (getNode (remember s now c tg ls srcLbl).1 l).isSome = true := by
    intro l hl
    rw [getNode_remember]
    rcases hl with h | rfl
    · obtain ⟨m, hm⟩ := Option.isSome_iff_exists.mp h
      rw [hm]
      split <;> simp
    · rw [hfresh, if_neg hVnotNext]
      simp
  have hIB' : IdsBelow (remember s now c tg ls srcLbl).1 := by
    intro n hn
    have hidmem : n.id ∈ (remember s now c tg ls srcLbl).1.nodes.map Node.id :=
      List.mem_map_of_mem Node.id hn
    rw [remember_map_id] at hidmem
    rw [remember_nextId]
    rcases List.mem_append.mp hidmem with h | h
    · obtain ⟨m, hm, hid⟩ := List.mem_map.mp h
      exact Nat.lt_succ_of_lt (hid ▸ hIB m hm)
    · simp at h
      omega
  have hLN' : LinksNodup (remember s now c tg ls srcLbl).1 := by
    intro n hn
    rcases hchar n hn with rfl | ⟨m, hm, hid, hcase⟩
    · exact hls.filter _
    · rcases hcase with ⟨rfl, hmemV⟩ | ⟨heqn, -⟩
      · unfold fAdd
        split
        · exact hLN m hm
        · rename_i hnl
          simp [List.nodup_append, hLN m hm, hnl]
      · rw [heqn]
        exact hLN m hm
  have hNS' : NoSelfLinks (remember s now c tg ls srcLbl).1 := by
    intro n hn
    rcases hchar n hn with rfl | ⟨m, hm, hid, hcase⟩
    · exact hVnotNext
    · rcases hcase with ⟨rfl, hmemV⟩ | ⟨heqn, -⟩
      · intro hmem
        rw [fAdd_id] at hmem
        rcases (mem_fAdd_links _ _ _).mp hmem with h | h
        · exact hNS m hm h
        · exact hub m hm h
      · rw [heqn]
        exact hNS m hm
  have hND' : NoDangling (remember s now c tg ls srcLbl).1 := by
    intro n hn l hl
    rcases hchar n hn with rfl | ⟨m, hm, hid, hcase⟩
    · rw [freshNode_links] at hl
      exact hex l (Or.inl (List.mem_filter.mp hl).2)
    · rcases hcase with ⟨rfl, hmemV⟩ | ⟨heqn, -⟩
      · rcases (mem_fAdd_links _ _ _).mp hl with h | rfl
        · exact hex l (Or.inl (hND m hm l h))
        · exact hex _ (Or.inr rfl)
      · rw [heqn] at hl
        exact hex l (Or.inl (hND m hm l hl))
  have hSym' : SymLinks (remember s now c tg ls srcLbl).1 := by
    intro n hn m' hm' hmn
    rcases hchar n hn with rfl | ⟨nx, hnx, hnxid, hncase⟩
    · rw [freshNode_links] at hmn
      rcases hchar m' hm' with rfl | ⟨mm, hmm, hmmid, hmcase⟩
      · rw [freshNode_id] at hmn
        exact absurd hmn hVnotNext
      · rcases hmcase with ⟨heqm, hmemV⟩ | ⟨-, hnotV⟩
        · rw [freshNode_id, heqm]
          exact (mem_fAdd_links _ _ _).mpr (Or.inr rfl)
        · exact absurd hmn hnotV
    · rcases hncase with ⟨rfl, hnV⟩ | ⟨heqn, hnnotV⟩
      · rcases (mem_fAdd_links _ _ _).mp hmn with hold | hnext
        · rcases hchar m' hm' with rfl | ⟨mm, hmm, hmmid, hmcase⟩
          · rw [freshNode_id] at hold
            have hD := hND nx hnx s.nextId hold
            rw [hfresh] at hD
            simp at hD
          · have hsym0 : nx.id ∈ mm.links := hSym nx hnx mm hmm (by rw [hmmid]; exact hold)
            rcases hmcase with ⟨heqm, -⟩ | ⟨heqm, -⟩
            · rw [fAdd_id, heqm]
              exact fAdd_links_sub _ _ _ hsym0
            · rw [fAdd_id, heqm]
              exact hsym0
        · rcases hchar m' hm' with rfl | ⟨mm, hmm, hmmid, hmcase⟩
          · rw [freshNode_links]
            rw [fAdd_id] at hnV ⊢
            exact hnV
          · exfalso
            exact hub mm hmm (by rw [hmmid, hnext])
      · rw [heqn] at hmn ⊢
        rcases hchar m' hm' with rfl | ⟨mm, hmm, hmmid, hmcase⟩
        · rw [freshNode_id] at hmn
          have hD := hND nx hnx s.nextId hmn
          rw [hfresh] at hD
          simp at hD
        · have hsym0 : nx.id ∈ mm.links := hSym nx hnx mm hmm (by rw [hmmid]; exact hmn)
          rcases hmcase with ⟨heqm, -⟩ | ⟨heqm, -⟩
          · rw [heqm]
            exact fAdd_links_sub _ _ _ hsym0
          · rw [heqm]
            exact hsym0
  exact ⟨hIN', hIB', hLN', hNS', hND', hSym'⟩

theorem find?_filter_of_imp {l : List Node} {p q : Node → Bool}
    (h : ∀ n, p n = true → q n = true) :
    (l.filter q).find? p = l.find? p := by
  induction l with
  | nil => rfl
  | cons a l ih =>
    cases hq : q a with
    | true =>
      rw [List.filter_cons_of_pos hq, List.find?_cons, List.find?_cons]
      cases hp : p a with
      | true => rfl
      | false => exact ih
    | false =>
      rw [List.filter_cons_of_neg (by simp [hq]), List.find?_cons]
      cases hp : p a with
      | true =>
        rw [h a hp] at hq
        cases hq
      | false => exact ih

/-- Lookup after DELETE FROM nodes WHERE id = i. -/
theorem getNode_delete (s1 : Store) (k i j : Nat) :
    getNode ⟨s1.nodes.filter (fun n => n.id != i), k⟩ j =
      if j = i then none else getNode s1 j := by
  by_cases hji : j = i
  · subst hji
    rw [if_pos rfl]
    unfold getNode
    apply List.find?_eq_none.mpr
    intro n hn
    have := (List.mem_filter.mp hn).2
    simpa using this
  · rw [if_neg hji]
    unfold getNode
    apply find?_filter_of_imp
    intro n hp
    have : n.id = j := by simpa using hp
    simp [this, hji]

theorem fRem_links_sublist (src : Nat) (n : Node) :
    List.Sublist (fRem src n).links n.links := by
  unfold fRem
  split
  · exact List.erase_sublist _ _
  · exact List.Sublist.refl _

theorem mem_of_mem_fRem {src a : Nat} {n : Node} (h : a ∈ (fRem src n).links) :
    a ∈ n.links :=
  (fRem_links_sublist src n).mem h

theorem not_mem_fRem_self {src : Nat} {n : Node} (hnd : n.links.Nodup) :
    src ∉ (fRem src n).links := by
  unfold fRem
  split <;> rename_i h
  · exact hnd.not_mem_erase
  · exact h

theorem mem_fRem_of_ne {src a : Nat} {n : Node} (hne : a ≠ src) (h : a ∈ n.links) :
    a ∈ (fRem src n).links := by
  unfold fRem
  split
  · exact (List.mem_erase_of_ne hne).mpr h
  · exact h

/-- Master lookup law for the state forget leaves behind, for a store
whose link lists are duplicate-free. -/
theorem getNode_forget (s : Store) (i : Nat) (node : Node)
    (hni : getNode s i = some node) (hnodup : node.links.Nodup) (j : Nat) :
    getNode (forget s i).1 j =
      if j = i then none
      else if j ∈ node.links then (getNode s j).map (fRem i) else getNode s j := by
  unfold forget
  rw [hni]
  simp only
  rw [getNode_delete, getNode_foldl_rem node.links i s j hnodup]

theorem forget_nextId_of_some (s : Store) (i : Nat) (node : Node)
    (hni : getNode s i = some node) : (forget s i).1.nextId = s.nextId := by
  unfold forget
  rw [hni]
  simp only
  rw [foldl_rem_nextId]

/-- forget preserves well-formedness. -/
theorem wf_forget (s : Store) (hWF : WF s) (i : Nat) : WF (forget s i).1 := by
  obtain ⟨hIN, hIB, hLN, hNS, hND, hSym⟩ := hWF
  cases hni : getNode s i with
  | none =>
    unfold forget
    rw [hni]
    exact ⟨hIN, hIB, hLN, hNS, hND, hSym⟩
  | some node =>
    have hnodemem : node ∈ s.nodes := (getNode_mem hni).1
    have hnodeid : node.id = i := (getNode_mem hni).2
    have hnodup : node.links.Nodup := hLN node hnodemem
    have hpt := getNode_forget s i node hni hnodup
    -- rows of the result are filtered transformed old rows
    have hchar : ∀ n ∈ (forget s i).1.nodes,
        n.id ≠ i ∧ ∃ m ∈ s.nodes, m.id = n.id ∧
          ((n = fRem i m ∧ n.id ∈ node.links) ∨ (n = m ∧ n.id ∉ node.links)) := by
      intro n hn
      have hIN1 : IdsNodup (forget s i).1 := by
        unfold forget at hn ⊢
        rw [hni] at hn ⊢
        simp only at hn ⊢
        unfold IdsNodup
        have hsub : List.Sublist
            (((node.links.foldl (fun st l => removeBackLink st l i) s).nodes.filter
              (fun n => n.id != i)).map Node.id)
            ((node.links.foldl (fun st l => removeBackLink st l i) s).nodes.map Node.id) :=
          (List.filter_sublist _).map Node.id
        rw [foldl_rem_map_id] at hsub
        exact (hIN : (s.nodes.map Node.id).Nodup).sublist hsub
      have hfind := mem_getNode hIN1 hn
      rw [hpt n.id] at hfind
      by_cases hji : n.id = i
      · rw [if_pos hji] at hfind
        cases hfind
      · rw [if_neg hji] at hfind
        refine ⟨hji, ?_⟩
        by_cases hmem : n.id ∈ node.links
        · rw [if_pos hmem] at hfind
          cases hg : getNode s n.id with
          | none => rw [hg] at hfind; cases hfind
          | some m =>
            rw [hg] at hfind
            have : fRem i m = n := by simpa using hfind
            exact ⟨m, (getNode_mem hg).1, (getNode_mem hg).2, Or.inl ⟨this.symm, hmem⟩⟩
        · rw [if_neg hmem] at hfind
          exact ⟨n, (getNode_mem hfind).1, rfl, Or.inr ⟨rfl, hmem⟩⟩
    have hnext : (forget s i).1.nextId = s.nextId := forget_nextId_of_some s i node hni
    have hIN' : IdsNodup (forget s i).1 := by
      unfold forget
      rw [hni]
      simp only
      unfold IdsNodup
      have hsub : List.Sublist
          (((node.links.foldl (fun st l => removeBackLink st l i) s).nodes.filter
            (fun n => n.id != i)).map Node.id)
          ((node.links.foldl (fun st l => removeBackLink st l i) s).nodes.map Node.id) :=
        (List.filter_sublist _).map Node.id
      rw [foldl_rem_map_id] at hsub
      exact (hIN : (s.nodes.map Node.id).Nodup).sublist hsub
    have hIB' : IdsBelow (forget s i).1 := by
      intro n hn
      obtain ⟨-, m, hm, hid, -⟩ := hchar n hn
      rw [hnext, ← hid]
      exact hIB m hm
    have hLN' : LinksNodup (forget s i).1 := by
      intro n hn
      obtain ⟨-, m, hm, -, hcase⟩ := hchar n hn
      rcases hcase with ⟨rfl, -⟩ | ⟨heqn, -⟩
      · unfold fRem
        split
        · exact (hLN m hm).erase i
        · exact hLN m hm
      · rw [heqn]
        exact hLN m hm
    have hNS' : NoSelfLinks (forget s i).1 := by
      intro n hn
      obtain ⟨-, m, hm, hid, hcase⟩ := hchar n hn
      rcases hcase with ⟨rfl, -⟩ | ⟨heqn, -⟩
      · intro hmem
        rw [fRem_id] at hmem
        exact hNS m hm (mem_of_mem_fRem hmem)
      · rw [heqn]
        exact hNS m hm
    -- a surviving row never links to i
    have hnoi : ∀ n ∈ (forget s i).1.nodes, i ∉ n.links := by
      intro n hn
      obtain ⟨hji, m, hm, hid, hcase⟩ := hchar n hn
      rcases hcase with ⟨rfl, -⟩ | ⟨heqn, hnotmem⟩
      · exact not_mem_fRem_self (hLN m hm)
      · rw [heqn]
        intro hmem
        have : m.id ∈ node.links := hSym m hm node hnodemem (hnodeid ▸ hmem)
        rw [hid] at this
        exact hnotmem this
    have hND' : NoDangling (forget s i).1 := by
      intro n hn l hl
      obtain ⟨hji, m, hm, hid, hcase⟩ := hchar n hn
      have hli : l ≠ i := by
        intro hrfl
        subst hrfl
        exact hnoi n hn hl
      have hlm : l ∈ m.links := by
        rcases hcase with ⟨rfl, -⟩ | ⟨heqn, -⟩
        · exact mem_of_mem_fRem hl
        · rw [heqn] at hl
          exact hl
      have hsome := hND m hm l hlm
      rw [hpt l, if_neg hli]
      by_cases hmem : l ∈ node.links
      · rw [if_pos hmem]
        obtain ⟨x, hx⟩ := Option.isSome_iff_exists.mp hsome
        rw [hx]
        rfl
      · rw [if_neg hmem]
        exact hsome
    have hSym' : SymLinks (forget s i).1 := by
      intro n hn m' hm' hmn
      obtain ⟨hni', nx, hnx, hnxid, hncase⟩ := hchar n hn
      obtain ⟨hmi', mx, hmx, hmxid, hmcase⟩ := hchar m' hm'
      have hmn0 : m'.id ∈ nx.links := by
        rcases hncase with ⟨rfl, -⟩ | ⟨heqn, -⟩
        · exact mem_of_mem_fRem hmn
        · rw [heqn] at hmn
          exact hmn
      have hsym0 : nx.id ∈ mx.links := hSym nx hnx mx hmx (by rw [hmxid]; exact hmn0)
      have hgoal0 : n.id ∈ mx.links := by rw [← hnxid]; exact hsym0
      rcases hmcase with ⟨rfl, -⟩ | ⟨heqm, -⟩
      · exact mem_fRem_of_ne hni' hgoal0
      · rw [heqm]
        exact hgoal0
    exact ⟨hIN', hIB', hLN', hNS', hND', hSym'⟩

theorem ctFun_id (c? : Option String) (t? : Option (List String)) (n : Node) :
    (ctFun c? t? n).id = n.id := by
  unfold ctFun
  cases c? <;> cases t? <;> rfl

theorem ctFun_links (c? : Option String) (t? : Option (List String)) (n : Node) :
    (ctFun c? t? n).links = n.links := by
  unfold ctFun
  cases c? <;> cases t? <;> rfl

theorem ctFun_source (c? : Option String) (t? : Option (List String)) (n : Node) :
    (ctFun c? t? n).source = n.source := by
  unfold ctFun
  cases c? <;> cases t? <;> rfl

theorem ctFun_access (c? : Option String) (t? : Option (List String)) (n : Node) :
    (ctFun c? t? n).accessCount = n.accessCount
      ∧ (ctFun c? t? n).lastAccessed = n.lastAccessed := by
  unfold ctFun
  cases c? <;> cases t? <;> exact ⟨rfl, rfl⟩

theorem getNode_ctStage (s : Store) (i : Nat) (c? : Option String)
    (t? : Option (List String)) (j : Nat) :
    getNode (ctStage s i c? t?) j =
      if j = i then (getNode s j).map (ctFun c? t?) else getNode s j := by
  unfold ctStage ctFun
  cases c? with
  | none =>
    cases t? with
    | none =>
      by_cases hji : j = i <;> simp [hji]
    | some tg =>
      rw [getNode_updateRow s i (fun n => { n with tags := tg }) (fun n => rfl) j]
  | some c =>
    cases t? with
    | none =>
      rw [getNode_updateRow s i (fun n => { n with content := c }) (fun n => rfl) j]
    | some tg =>
      rw [getNode_updateRow (updateRow s i (fun n => { n with content := c })) i
        (fun n => { n with tags := tg }) (fun n => rfl) j]
      rw [getNode_updateRow s i (fun n => { n with content := c }) (fun n => rfl) j]
      by_cases hji : j = i
      · subst hji
        cases getNode s j <;> simp
      · simp [hji]

theorem validNew_ctStage (s : Store) (i : Nat) (c? : Option String)
    (t? : Option (List String)) (req : List Nat) :
    validNew (ctStage s i c? t?) i req = validNew s i req := by
  unfold validNew
  apply List.filter_congr
  intro l _
  rw [getNode_ctStage]
  by_cases hli : l = i <;> simp [hli]

theorem setLinks_fRem (v : List Nat) (src : Nat) (n : Node) :
    { fRem src n with links := v } = { n with links := v } := by
  unfold fRem
  split <;> rfl

theorem self_not_mem_validNew (s : Store) (i : Nat) (req : List Nat) :
    i ∉ validNew s i req := by
  unfold validNew
  simp [List.mem_filter]

theorem removed_added_disjoint (node : Node) (v : List Nat) :
    ∀ x, x ∈ removedSet node v → x ∉ addedSet node v := by
  intro x hr ha
  have hxl : x ∈ node.links := List.mem_dedup.mp (List.mem_filter.mp hr).1
  have hnot := (List.mem_filter.mp ha).2
  simp at hnot
  exact hnot hxl

/-- Master lookup law for the state update leaves when a replacement link
list is supplied. -/
theorem getNode_update_links (s : Store) (i : Nat) (c? : Option String)
    (t? : Option (List String)) (req : List Nat) (node : Node)
    (hni : getNode s i = some node) (j : Nat) :
    getNode (update s i c? t? (some req)).1 j =
      if j = i then some { ctFun c? t? node with links := validNew s i req }
      else if j ∈ removedSet node (validNew s i req) then (getNode s j).map (fRem i)
      else if j ∈ addedSet node (validNew s i req) then (getNode s j).map (fAdd i)
      else getNode s j := by
  unfold update
  rw [hni]
  simp only
  rw [validNew_ctStage]
  rw [getNode_updateRow _ i (fun n => { n with links := validNew s i req })
    (fun n => rfl) j]
  rw [getNode_foldl_add]
  have hremN : (removedSet node (validNew s i req)).Nodup := by
    unfold removedSet
    exact (List.nodup_dedup _).filter _
  rw [getNode_foldl_rem _ _ _ _ hremN]
  rw [getNode_ctStage]
  by_cases hji : j = i
  · subst hji
    rw [hni]
    simp only [eq_self_iff_true, if_true]
    have hiA : j ∉ addedSet node (validNew s j req) := by
      intro hmem
      exact self_not_mem_validNew s j req
        (List.mem_dedup.mp (List.mem_filter.mp hmem).1)
    rw [if_neg hiA]
    by_cases hiR : j ∈ removedSet node (validNew s j req)
    · rw [if_pos hiR]
      simp only [Option.map_map, Option.map_some', Function.comp]
      unfold fRem
      split <;> rfl
    · rw [if_neg hiR]
      simp only [Option.map_map, Option.map_some', Function.comp]
  · rw [if_neg hji, if_neg hji, if_neg hji]
    by_cases hR : j ∈ removedSet node (validNew s i req)
    · rw [if_pos hR, if_pos hR, if_neg (removed_added_disjoint node _ j hR)]
    · rw [if_neg hR, if_neg hR]

theorem update_missing (s : Store) (i : Nat) (c? : Option String)
    (t? : Option (List String)) (l? : Option (List Nat))
    (hni : getNode s i = none) : update s i c? t? l? = (s, none) := by
  unfold update
  rw [hni]

theorem getNode_update_nolinks (s : Store) (i : Nat) (c? : Option String)
    (t? : Option (List String)) (node : Node) (hni : getNode s i = some node) (j : Nat) :
    getNode (update s i c? t? none).1 j =
      if j = i then (getNode s j).map (ctFun c? t?) else getNode s j := by
  unfold update
  rw [hni]
  simp only
  exact getNode_ctStage s i c? t? j

theorem ctStage_map_id (s : Store) (i : Nat) (c? : Option String)
    (t? : Option (List String)) :
    (ctStage s i c? t?).nodes.map Node.id = s.nodes.map Node.id := by
  unfold ctStage
  cases c? with
  | none =>
    cases t? with
    | none => rfl
    | some tg => exact updateRow_map_id s i (fun n => { n with tags := tg }) (fun n => rfl)
  | some c =>
    cases t? with
    | none => exact updateRow_map_id s i (fun n => { n with content := c }) (fun n => rfl)
    | some tg =>
      rw [updateRow_map_id _ i (fun n => { n with tags := tg }) (fun n => rfl)]
      exact updateRow_map_id s i (fun n => { n with content := c }) (fun n => rfl)

theorem ctStage_nextId (s : Store) (i : Nat) (c? : Option String)
    (t? : Option (List String)) :
    (ctStage s i c? t?).nextId = s.nextId := by
  unfold ctStage
  cases c? <;> cases t? <;> rfl

theorem update_map_id (s : Store) (i : Nat) (c? : Option String)
    (t? : Option (List String)) (l? : Option (List Nat)) :
    (update s i c? t? l?).1.nodes.map Node.id = s.nodes.map Node.id := by
  unfold update
  cases hni : getNode s i with
  | none => rfl
  | some node =>
    simp only
    cases l? with
    | none => exact ctStage_map_id s i c? t?
    | some req =>
      simp only
      rw [updateRow_map_id _ i
        (fun n => { n with links := validNew (ctStage s i c? t?) i req }) (fun n => rfl)]
      rw [foldl_add_map_id, foldl_rem_map_id, ctStage_map_id]

theorem update_nextId (s : Store) (i : Nat) (c? : Option String)
    (t? : Option (List String)) (l? : Option (List Nat)) :
    (update s i c? t? l?).1.nextId = s.nextId := by
  unfold update
  cases hni : getNode s i with
  | none => rfl
  | some node =>
    simp only
    cases l? with
    | none => exact ctStage_nextId s i c? t?
    | some req =>
      simp only
      rw [updateRow_nextId, foldl_add_nextId, foldl_rem_nextId, ctStage_nextId]

theorem mem_validNew {s : Store} {i : Nat} {req : List Nat} {x : Nat} :
    x ∈ validNew s i req ↔ x ∈ req ∧ x ≠ i ∧ (getNode s x).isSome = true := by
  unfold validNew
  simp [List.mem_filter, and_assoc]

theorem mem_removedSet {node : Node} {v : List Nat} {x : Nat} :
    x ∈ removedSet node v ↔ x ∈ node.links ∧ x ∉ v := by
  unfold removedSet
  simp [List.mem_filter]

theorem mem_addedSet {node : Node} {v : List Nat} {x : Nat} :
    x ∈ addedSet node v ↔ x ∈ v ∧ x ∉ node.links := by
  unfold addedSet
  simp [List.mem_filter]

/-- Row analysis of the state update leaves when a replacement link list
is supplied. -/
theorem update_links_row_char (s : Store) (hIN : IdsNodup s) (i : Nat)
    (c? : Option String) (t? : Option (List String)) (req : List Nat) (node : Node)
    (hni : getNode s i = some node) :
    ∀ n ∈ (update s i c? t? (some req)).1.nodes,
      (n = { ctFun c? t? node with links := validNew s i req } ∧ n.id = i) ∨
      ∃ m ∈ s.nodes, m.id = n.id ∧ n.id ≠ i ∧
        ((n = fRem i m ∧ n.id ∈ removedSet node (validNew s i req))
         ∨ (n = fAdd i m ∧ n.id ∈ addedSet node (validNew s i req))
         ∨ (n = m ∧ n.id ∉ removedSet node (validNew s i req)
            ∧ n.id ∉ addedSet node (validNew s i req))) := by
  intro n hn
  have hIN' : IdsNodup (update s i c? t? (some req)).1 := by
    unfold IdsNodup
    rw [update_map_id]
    exact hIN
  have hfind := mem_getNode hIN' hn
  rw [getNode_update_links s i c? t? req node hni n.id] at hfind
  by_cases hji : n.id = i
  · rw [if_pos hji] at hfind
    injection hfind with h
    exact Or.inl ⟨h.symm, hji⟩
  · rw [if_neg hji] at hfind
    by_cases hR : n.id ∈ removedSet node (validNew s i req)
    · rw [if_pos hR] at hfind
      cases hg : getNode s n.id with
      | none => rw [hg] at hfind; cases hfind
      | some m =>
        rw [hg] at hfind
        have h : fRem i m = n := by simpa using hfind
        exact Or.inr ⟨m, (getNode_mem hg).1, (getNode_mem hg).2, hji, Or.inl ⟨h.symm, hR⟩⟩
    · rw [if_neg hR] at hfind
      by_cases hA : n.id ∈ addedSet node (validNew s i req)
      · rw [if_pos hA] at hfind
        cases hg : getNode s n.id with
        | none => rw [hg] at hfind; cases hfind
        | some m =>
          rw [hg] at hfind
          have h : fAdd i m = n := by simpa using hfind
          exact Or.inr ⟨m, (getNode_mem hg).1, (getNode_mem hg).2, hji,
            Or.inr (Or.inl ⟨h.symm, hA⟩)⟩
      · rw [if_neg hA] at hfind
        exact Or.inr ⟨n, (getNode_mem hfind).1, rfl, hji, Or.inr (Or.inr ⟨rfl, hR, hA⟩)⟩

/-- Row analysis of the state update leaves when no link list is given:
only content/tags of the target can change, link lists are untouched. -/
theorem update_nolinks_row_char (s : Store) (hIN : IdsNodup s) (i : Nat)
    (c? : Option String) (t? : Option (List String)) (node : Node)
    (hni : getNode s i = some node) :
    ∀ n ∈ (update s i c? t? none).1.nodes,
      ∃ m ∈ s.nodes, m.id = n.id ∧ n.links = m.links := by
  intro n hn
  have hIN' : IdsNodup (update s i c? t? none).1 := by
    unfold IdsNodup
    rw [update_map_id]
    exact hIN
  have hfind := mem_getNode hIN' hn
  rw [getNode_update_nolinks s i c? t? node hni n.id] at hfind
  by_cases hji : n.id = i
  · rw [if_pos hji] at hfind
    cases hg : getNode s n.id with
    | none => rw [hg] at hfind; cases hfind
    | some m =>
      rw [hg] at hfind
      have h : ctFun c? t? m = n := by simpa using hfind
      exact ⟨m, (getNode_mem hg).1, (getNode_mem hg).2, by rw [← h, ctFun_links]⟩
  · rw [if_neg hji] at hfind
    exact ⟨n, (getNode_mem hfind).1, rfl, rfl⟩

/-- update preserves well-formedness when the requested replacement link
list, if any, is duplicate-free. -/
theorem wf_update (s : Store) (hWF : WF s) (i : Nat) (c? : Option String)
    (t? : Option (List String)) (l? : Option (List Nat))
    (hreq : ∀ req, l? = some req → req.Nodup) :
    WF (update s i c? t? l?).1 := by
  obtain ⟨hIN, hIB, hLN, hNS, hND, hSym⟩ := hWF
  have hIN' : IdsNodup (update s i c? t? l?).1 := by
    unfold IdsNodup
    rw [update_map_id]
    exact hIN
  have hIB' : IdsBelow (update s i c? t? l?).1 := by
    intro n hn
    have hmem : n.id ∈ (update s i c? t? l?).1.nodes.map Node.id :=
      List.mem_map_of_mem Node.id hn
    rw [update_map_id] at hmem
    obtain ⟨m, hm, hid⟩ := List.mem_map.mp hmem
    rw [update_nextId, ← hid]
    exact hIB m hm
  cases hgi : getNode s i with
  | none =>
    rw [update_missing s i c? t? l? hgi]
    exact ⟨hIN, hIB, hLN, hNS, hND, hSym⟩
  | some node =>
    have hnodemem : node ∈ s.nodes := (getNode_mem hgi).1
    have hnodeid : node.id = i := (getNode_mem hgi).2
    cases l? with
    | none =>
      have hchar := update_nolinks_row_char s hIN i c? t? node hgi
      have hiso : ∀ l, (getNode s l).isSome = true →
          (getNode (update s i c? t? none).1 l).isSome = true := by
        intro l h
        rw [getNode_update_nolinks s i c? t? node hgi l]
        obtain ⟨x, hx⟩ := Option.isSome_iff_exists.mp h
        split <;> simp [hx]
      refine ⟨hIN', hIB', ?_, ?_, ?_, ?_⟩
      · intro n hn
        obtain ⟨m, hm, hid, hlinks⟩ := hchar n hn
        rw [hlinks]
        exact hLN m hm
      · intro n hn
        obtain ⟨m, hm, hid, hlinks⟩ := hchar n hn
        rw [hlinks, ← hid]
        exact hNS m hm
      · intro n hn l hl
        obtain ⟨m, hm, hid, hlinks⟩ := hchar n hn
        rw [hlinks] at hl
        exact hiso l (hND m hm l hl)
      · intro n hn m' hm' hmn
        obtain ⟨nx, hnx, hnxid, hnlinks⟩ := hchar n hn
        obtain ⟨mx, hmx, hmxid, hmlinks⟩ := hchar m' hm'
        rw [hnlinks] at hmn
        rw [hmlinks, ← hnxid]
        exact hSym nx hnx mx hmx (by rw [hmxid]; exact hmn)
    | some req =>
      have hVNodup : (validNew s i req).Nodup := (hreq req rfl).filter _
      have hchar := update_links_row_char s hIN i c? t? req node hgi
      have hiso : ∀ l, (getNode s l).isSome = true →
          (getNode (update s i c? t? (some req)).1 l).isSome = true := by
        intro l h
        rw [getNode_update_links s i c? t? req node hgi l]
        obtain ⟨x, hx⟩ := Option.isSome_iff_exists.mp h
        split
        · simp
        · split
          · simp [hx]
          · split <;> simp [hx]
      refine ⟨hIN', hIB', ?_, ?_, ?_, ?_⟩
      · intro n hn
        rcases hchar n hn with ⟨heqn, hni'⟩ | ⟨m, hm, hid, hne, hcase⟩
        · rw [heqn]
          exact hVNodup
        · rcases hcase with ⟨heqn, -⟩ | ⟨heqn, -⟩ | ⟨heqn, -, -⟩
          · rw [heqn]
            unfold fRem
            split
            · exact (hLN m hm).erase i
            · exact hLN m hm
          · rw [heqn]
            unfold fAdd
            split
            · exact hLN m hm
            · rename_i hnl
              simp [List.nodup_append, hLN m hm, hnl]
          · rw [heqn]
            exact hLN m hm
      · intro n hn
        rcases hchar n hn with ⟨heqn, hni'⟩ | ⟨m, hm, hid, hne, hcase⟩
        · intro hmem
          have h2 : n.links = validNew s i req := by rw [heqn]
          rw [h2, hni'] at hmem
          exact self_not_mem_validNew s i req hmem
        · rcases hcase with ⟨heqn, -⟩ | ⟨heqn, -⟩ | ⟨heqn, -, -⟩
          · rw [heqn, fRem_id]
            intro hmem
            exact hNS m hm (mem_of_mem_fRem hmem)
          · rw [heqn, fAdd_id]
            intro hmem
            rcases (mem_fAdd_links _ _ _).mp hmem with h | h
            · exact hNS m hm h
            · exact hne (by rw [← hid]; exact h)
          · rw [heqn]
            exact hNS m hm
      · intro n hn l hl
        rcases hchar n hn with ⟨heqn, hni'⟩ | ⟨m, hm, hid, hne, hcase⟩
        · rw [heqn] at hl
          have hlV : l ∈ validNew s i req := hl
          exact hiso l (mem_validNew.mp hlV).2.2
        · rcases hcase with ⟨heqn, -⟩ | ⟨heqn, -⟩ | ⟨heqn, -, -⟩
          · rw [heqn] at hl
            exact hiso l (hND m hm l (mem_of_mem_fRem hl))
          · rw [heqn] at hl
            rcases (mem_fAdd_links _ _ _).mp hl with h | rfl
            · exact hiso l (hND m hm l h)
            · exact hiso l (by rw [hgi]; rfl)
          · rw [heqn] at hl
            exact hiso l (hND m hm l hl)
      · intro n hn m' hm' hmn
        rcases hchar n hn with ⟨heqn, hni'⟩ | ⟨nx, hnx, hnxid, hnne, hncase⟩
        · -- n is the updated row i, its links are the validated list
          rw [heqn] at hmn
          have hmnV : m'.id ∈ validNew s i req := hmn
          rw [hni']
          rcases hchar m' hm' with ⟨heqm, hmi⟩ | ⟨mx, hmx, hmxid, hmne, hmcase⟩
          · rw [hmi] at hmnV
            exact absurd hmnV (self_not_mem_validNew s i req)
          · rcases hmcase with ⟨heqm, hmR⟩ | ⟨heqm, hmA⟩ | ⟨heqm, hmR, hmA⟩
            · exact absurd hmnV (mem_removedSet.mp hmR).2
            · rw [heqm]
              exact fAdd_mem i mx
            · have hmlinks : m'.id ∈ node.links := by
                by_contra hno
                exact hmA (mem_addedSet.mpr ⟨hmnV, hno⟩)
              have hs0 := hSym node hnodemem mx hmx (by rw [hmxid]; exact hmlinks)
              rw [heqm]
              rw [hnodeid] at hs0
              exact hs0
        · -- n is an old row nx, possibly with the back-link edited
          rcases hchar m' hm' with ⟨heqm, hmi⟩ | ⟨mx, hmx, hmxid, hmne, hmcase⟩
          · -- m' is the updated row i: show n.id ∈ the validated list
            suffices hnV : n.id ∈ validNew s i req by
              rw [heqm]
              exact hnV
            rcases hncase with ⟨heqn, hnR⟩ | ⟨heqn, hnA⟩ | ⟨heqn, hnR, hnA⟩
            · rw [heqn] at hmn
              rw [hmi] at hmn
              exact absurd hmn (not_mem_fRem_self (hLN nx hnx))
            · exact (mem_addedSet.mp hnA).1
            · rw [heqn] at hmn
              rw [hmi] at hmn
              have hs0 := hSym nx hnx node hnodemem (by rw [hnodeid]; exact hmn)
              by_contra hnoV
              refine hnR (mem_removedSet.mpr ⟨?_, hnoV⟩)
              rw [← hnxid]
              exact hs0
          · -- both are old rows: reduce to the old symmetry
            have hm0 : m'.id ∈ nx.links := by
              rcases hncase with ⟨heqn, -⟩ | ⟨heqn, -⟩ | ⟨heqn, -, -⟩
              · rw [heqn] at hmn
                exact mem_of_mem_fRem hmn
              · rw [heqn] at hmn
                rcases (mem_fAdd_links _ _ _).mp hmn with h | h
                · exact h
                · exact absurd h hmne
              · rw [heqn] at hmn
                exact hmn
            have hs0 : nx.id ∈ mx.links := hSym nx hnx mx hmx (by rw [hmxid]; exact hm0)
            rw [← hnxid]
            rcases hmcase with ⟨heqm, -⟩ | ⟨heqm, -⟩ | ⟨heqm, -, -⟩
            · rw [heqm]
              refine mem_fRem_of_ne ?_ hs0
              rw [hnxid]
              exact hnne
            · rw [heqm]
              exact fAdd_links_sub _ _ _ hs0
            · rw [heqm]
              exact hs0

/-- The visit-order accumulator only ever grows: the loop's result
extends it. -/
theorem bfsLoop_order_extends (s : Store) (d : Nat) :
    ∀ (q : List (Nat × Nat)) (v : List Nat) (o : List (Nat × Nat)),
      ∃ ext, bfsLoop s d q v o = o ++ ext := by
  intro q v o
  induction q, v, o using bfsLoop.induct s d with
  | case1 v o =>
    refine ⟨[], ?_⟩
    rw [bfsLoop_nil]
    simp
  | case2 v o cid cd rest hn ih =>
    obtain ⟨ext, hext⟩ := ih
    refine ⟨ext, ?_⟩
    rw [bfsLoop_cons_none s d cid cd rest v o hn]
    exact hext
  | case3 v o cid cd rest node hn hlt vq ih =>
    obtain ⟨ext, hext⟩ := ih
    refine ⟨(cid, cd) :: ext, ?_⟩
    rw [bfsLoop_cons_lt s d cid cd rest v o node hn hlt]
    rw [show (enqueueNew node.links (cd + 1) v rest) = vq from rfl, hext]
    simp
  | case4 v o cid cd rest node hn hge ih =>
    obtain ⟨ext, hext⟩ := ih
    refine ⟨(cid, cd) :: ext, ?_⟩
    rw [bfsLoop_cons_ge s d cid cd rest v o node hn hge]
    rw [hext]
    simp

/-- No id is visited twice: provided the ids already recorded or queued
are pairwise distinct and all marked visited, the final visit order has
pairwise distinct ids. -/
theorem bfsLoop_nodup (s : Store) (d : Nat) :
    ∀ (q : List (Nat × Nat)) (v : List Nat) (o : List (Nat × Nat)),
      (o.map Prod.fst ++ q.map Prod.fst).Nodup →
      (∀ x, x ∈ o.map Prod.fst ++ q.map Prod.fst → x ∈ v) →
      ((bfsLoop s d q v o).map Prod.fst).Nodup := by
  intro q v o
  induction q, v, o using bfsLoop.induct s d with
  | case1 v o =>
    intro h1 _
    rw [bfsLoop_nil]
    simpa using h1
  | case2 v o cid cd rest hn ih =>
    intro h1 h2
    rw [bfsLoop_cons_none s d cid cd rest v o hn]
    apply ih
    · refine h1.sublist ?_
      apply List.Sublist.append_left
      simp only [List.map_cons]
      exact List.sublist_cons_self _ _
    · intro x hx
      apply h2
      simp only [List.map_cons, List.mem_append, List.mem_cons] at hx ⊢
      tauto
  | case3 v o cid cd rest node hn hlt vq ih =>
    intro h1 h2
    rw [bfsLoop_cons_lt s d cid cd rest v o node hn hlt]
    obtain ⟨fresh, hv, hq, hfnd, hfprop⟩ := enqueueNew_spec node.links (cd + 1) v rest
    apply ih
    · show (((o ++ [(cid, cd)]).map Prod.fst)
          ++ ((enqueueNew node.links (cd + 1) v rest).2.map Prod.fst)).Nodup
      rw [hq]
      have heq : ((o ++ [(cid, cd)]).map Prod.fst)
          ++ ((rest ++ fresh.map (fun l => (l, cd + 1))).map Prod.fst)
          = (o.map Prod.fst ++ cid :: rest.map Prod.fst) ++ fresh := by
        simp [Function.comp_def]
      rw [heq]
      refine List.Nodup.append ?_ hfnd ?_
      · simpa using h1
      · intro a ha haf
        have hav : a ∈ v := h2 a (by simpa using ha)
        exact (hfprop a haf).1 hav
    · show ∀ x, x ∈ ((o ++ [(cid, cd)]).map Prod.fst)
          ++ ((enqueueNew node.links (cd + 1) v rest).2.map Prod.fst)
          → x ∈ (enqueueNew node.links (cd + 1) v rest).1
      rw [hq, hv]
      have hsplit : ((o ++ [(cid, cd)]).map Prod.fst)
          ++ ((rest ++ fresh.map (fun l => (l, cd + 1))).map Prod.fst)
          = (o.map Prod.fst ++ cid :: rest.map Prod.fst) ++ fresh := by
        simp [Function.comp_def]
      rw [hsplit]
      intro x hx
      rw [List.mem_append]
      rcases List.mem_append.mp hx with h | h
      · exact Or.inl (h2 x (by simpa using h))
      · exact Or.inr h
  | case4 v o cid cd rest node hn hge ih =>
    intro h1 h2
    rw [bfsLoop_cons_ge s d cid cd rest v o node hn hge]
    apply ih
    · simpa using h1
    · intro x hx
      apply h2
      simp only [List.map_append, List.map_cons, List.mem_append, List.mem_cons] at hx ⊢
      tauto

/-- Every recorded distance stays within the depth bound. -/
theorem bfsLoop_depth_le (s : Store) (d : Nat) :
    ∀ (q : List (Nat × Nat)) (v : List Nat) (o : List (Nat × Nat)),
      (∀ p ∈ q, p.2 ≤ d) → (∀ p ∈ o, p.2 ≤ d) →
      ∀ p ∈ bfsLoop s d q v o, p.2 ≤ d := by
  intro q v o
  induction q, v, o using bfsLoop.induct s d with
  | case1 v o =>
    intro _ h2
    rw [bfsLoop_nil]
    exact h2
  | case2 v o cid cd rest hn ih =>
    intro h1 h2
    rw [bfsLoop_cons_none s d cid cd rest v o hn]
    exact ih (fun p hp => h1 p (List.mem_cons_of_mem _ hp)) h2
  | case3 v o cid cd rest node hn hlt vq ih =>
    intro h1 h2
    rw [bfsLoop_cons_lt s d cid cd rest v o node hn hlt]
    obtain ⟨fresh, hv, hq, hfnd, hfprop⟩ := enqueueNew_spec node.links (cd + 1) v rest
    apply ih
    · show ∀ p ∈ (enqueueNew node.links (cd + 1) v rest).2, p.2 ≤ d
      rw [hq]
      intro p hp
      rcases List.mem_append.mp hp with hp | hp
      · exact h1 p (List.mem_cons_of_mem _ hp)
      · obtain ⟨l, -, hlp⟩ := List.mem_map.mp hp
        rw [← hlp]
        exact hlt
    · intro p hp
      rcases List.mem_append.mp hp with hp | hp
      · exact h2 p hp
      · simp only [List.mem_singleton] at hp
        rw [hp]
        exact Nat.le_of_lt hlt
  | case4 v o cid cd rest node hn hge ih =>
    intro h1 h2
    rw [bfsLoop_cons_ge s d cid cd rest v o node hn hge]
    apply ih
    · exact fun p hp => h1 p (List.mem_cons_of_mem _ hp)
    · intro p hp
      rcases List.mem_append.mp hp with hp | hp
      · exact h2 p hp
      · simp only [List.mem_singleton] at hp
        rw [hp]
        exact h1 (cid, cd) (List.mem_cons_self _ _)

/-- The start node is visited first, at distance 0. -/
theorem bfsLoop_start (s : Store) (d i : Nat) (n : Node) (h : getNode s i = some n) :
    ∃ ext, bfsLoop s d [(i, 0)] [i] [] = (i, 0) :: ext := by
  by_cases hlt : 0 < d
  · rw [bfsLoop_cons_lt s d i 0 [] [i] [] n h hlt]
    obtain ⟨ext, hext⟩ := bfsLoop_order_extends s d
      (enqueueNew n.links 1 [i] []).2 (enqueueNew n.links 1 [i] []).1 [(i, 0)]
    exact ⟨ext, hext⟩
  · rw [bfsLoop_cons_ge s d i 0 [] [i] [] n h hlt]
    refine ⟨[], ?_⟩
    rw [bfsLoop_nil]
    rfl

/-- With depth 0 the loop visits exactly the start node. -/
theorem bfsLoop_depth0 (s : Store) (i : Nat) (n : Node) (h : getNode s i = some n) :
    bfsLoop s 0 [(i, 0)] [i] [] = [(i, 0)] := by
  rw [bfsLoop_cons_ge s 0 i 0 [] [i] [] n h (by omega), bfsLoop_nil]
  rfl

/-- The ids the traversal visits from a start node are pairwise
distinct. -/
theorem bfs_order_nodup (s : Store) (d i : Nat) :
    ((bfsLoop s d [(i, 0)] [i] []).map Prod.fst).Nodup := by
  apply bfsLoop_nodup
  · simp
  · intro x hx
    simpa using hx

/-- A projection blind to link lists is blind to fAdd. -/
theorem fAdd_proj {α : Type} (proj : Node → α)
    (hlinks : ∀ n ls, proj { n with links := ls } = proj n) (src : Nat) (n : Node) :
    proj (fAdd src n) = proj n := by
  unfold fAdd
  split
  · rfl
  · exact hlinks n _

/-- A projection blind to link lists is blind to fRem. -/
theorem fRem_proj {α : Type} (proj : Node → α)
    (hlinks : ∀ n ls, proj { n with links := ls } = proj n) (src : Nat) (n : Node) :
    proj (fRem src n) = proj n := by
  unfold fRem
  split
  · exact hlinks n _
  · rfl

/-- update never changes any row's value under a projection blind to
content, tags and links (for example the source field or the access
statistics). -/
theorem getNode_update_proj {α : Type} (proj : Node → α)
    (hct : ∀ c? t? n, proj (ctFun c? t? n) = proj n)
    (hlinks : ∀ n ls, proj { n with links := ls } = proj n)
    (s : Store) (i : Nat) (c? : Option String) (t? : Option (List String))
    (l? : Option (List Nat)) (j : Nat) :
    (getNode (update s i c? t? l?).1 j).map proj = (getNode s j).map proj := by
  cases hni : getNode s i with
  | none =>
    rw [update_missing s i c? t? l? hni]
  | some node =>
    cases l? with
    | none =>
      rw [getNode_update_nolinks s i c? t? node hni j]
      split
      · cases getNode s j <;> simp [hct]
      · rfl
    | some req =>
      rw [getNode_update_links s i c? t? req node hni j]
      split
      · rename_i hji
        rw [hji, hni]
        simp only [Option.map_some']
        rw [hlinks (ctFun c? t? node) (validNew s i req), hct]
      · split
        · cases getNode s j <;> simp [fRem_proj proj hlinks]
        · split
          · cases getNode s j <;> simp [fAdd_proj proj hlinks]
          · rfl

/-- remember never changes an existing row's value under a projection
blind to links. -/
theorem getNode_remember_proj {α : Type} (proj : Node → α)
    (hlinks : ∀ n ls, proj { n with links := ls } = proj n)
    (s : Store) (now : Nat) (c : String) (tg : List String) (ls : List Nat)
    (srcLbl : String) (j : Nat) (m : Node) (hm : getNode s j = some m) :
    (getNode (remember s now c tg ls srcLbl).1 j).map proj = some (proj m) := by
  rw [getNode_remember, hm]
  split
  · simp [fAdd_proj proj hlinks]
  · simp

/-- forget never changes a surviving row's value under a projection blind
to links (in a store with duplicate-free link lists). -/
theorem getNode_forget_proj {α : Type} (proj : Node → α)
    (hlinks : ∀ n ls, proj { n with links := ls } = proj n)
    (s : Store) (i : Nat) (node : Node) (hni : getNode s i = some node)
    (hnodup : node.links.Nodup) (j : Nat) (m : Node) (hm : getNode s j = some m)
    (hji : j ≠ i) :
    (getNode (forget s i).1 j).map proj = some (proj m) := by
  rw [getNode_forget s i node hni hnodup j, if_neg hji]
  split
  · rw [hm]
    simp [fRem_proj proj hlinks]
  · rw [hm]
    rfl

/-- The node remember hands back is exactly the fresh row (the id counter
being fresh, no back-link write can touch it). -/
theorem remember_ret (s : Store) (hIB : IdsBelow s) (now : Nat) (c : String)
    (tg : List String) (ls : List Nat) (srcLbl : String) :
    (remember s now c tg ls srcLbl).2 = some (freshNode s now c tg ls srcLbl) := by
  have hfresh : getNode s s.nextId = none :=
    getNode_eq_none.mpr (fun n hn => Nat.ne_of_lt (hIB n hn))
  have hVnotNext : s.nextId ∉ ls.filter (fun l => (getNode s l).isSome) := by
    intro hmem
    have h2 := (List.mem_filter.mp hmem).2
    rw [hfresh] at h2
    simp at h2
  show getNode (remember s now c tg ls srcLbl).1 s.nextId = _
  rw [getNode_remember, if_neg hVnotNext, hfresh]
  simp

/-- The candidate pipeline of recall keeps ids pairwise distinct when the
store and the text-search oracle do. -/
theorem recallCandidates_nodup (s : Store) (hIN : IdsNodup s)
    (fts : String → List Node) (hfts : ∀ q, ((fts q).map Node.id).Nodup)
    (query : String) (tags : List String) :
    ((recallCandidates s fts query tags).map Node.id).Nodup := by
  have hbase : ((baseCandidates s fts query).map Node.id).Nodup := by
    unfold baseCandidates
    split
    · exact hfts _
    · exact hIN
  unfold recallCandidates
  split
  · exact hbase.sublist ((List.filter_sublist _).map Node.id)
  · exact hbase

/-- The rows the candidate pipeline yields are rows of the store when the
oracle only returns stored rows (the source's JOIN with the nodes
table). -/
theorem recallCandidates_mem (s : Store) (fts : String → List Node)
    (hfts : ∀ q, ∀ n ∈ fts q, n ∈ s.nodes) (query : String) (tags : List String) :
    ∀ n ∈ recallCandidates s fts query tags, n ∈ s.nodes := by
  have hbase : ∀ n ∈ baseCandidates s fts query, n ∈ s.nodes := by
    unfold baseCandidates
    intro n hn
    split at hn
    · exact hfts _ n hn
    · exact hn
  unfold recallCandidates
  intro n hn
  split at hn
  · exact hbase n (List.mem_of_mem_filter hn)
  · exact hbase n hn

theorem pySliceTo_sublist {α : Type} (l : List α) (limit : Int) :
    List.Sublist (pySliceTo l limit) l := by
  unfold pySliceTo
  split <;> exact List.take_sublist _ _

/-- Closing an FTS5 string: a quote not followed by a second quote ends
the phrase. -/
theorem ftsLexGo_close (acc : List Char) (c : Char) (rest : List Char) (hc : c ≠ '"') :
    ftsLexGo (.str acc) ('"' :: c :: rest)
      = (ftsLexGo .top (c :: rest)).map (fun items => .phrase ⟨acc⟩ :: items) := by
  simp [ftsLexGo, hc]

/-- Scanning a quote-free token body inside an FTS5 string: everything up
to the closing quote lands verbatim in one phrase. -/
theorem ftsLexGo_scan (tdata : List Char) (hnq : '"' ∉ tdata) :
    ∀ (acc rest : List Char), rest.head? ≠ some '"' →
      ftsLexGo (.str acc) (tdata ++ '"' :: rest)
        = (ftsLexGo .top rest).map (fun items => .phrase ⟨acc ++ tdata⟩ :: items) := by
  induction tdata with
  | nil =>
    intro acc rest hrest
    cases rest with
    | nil => simp [ftsLexGo]
    | cons c rest' =>
      have hc : c ≠ '"' := by
        intro hrfl
        exact hrest (by rw [hrfl]; rfl)
      simpa using ftsLexGo_close acc c rest' hc
  | cons c tdata ih =>
    intro acc rest hrest
    have hc : c ≠ '"' := fun h => hnq (h ▸ List.mem_cons_self c tdata)
    have hstep : ftsLexGo (.str acc) (c :: (tdata ++ '"' :: rest))
        = ftsLexGo (.str (acc ++ [c])) (tdata ++ '"' :: rest) := by
      simp [ftsLexGo, hc]
    rw [List.cons_append, hstep,
      ih (fun h => hnq (List.mem_cons_of_mem c h)) (acc ++ [c]) rest hrest]
    simp

/-- Opening an FTS5 string. -/
theorem ftsLexGo_open (rest : List Char) :
    ftsLexGo .top ('"' :: rest) = ftsLexGo (.str []) rest := by
  simp [ftsLexGo]

/-- Skipping one space at top level. -/
theorem ftsLexGo_space (rest : List Char) :
    ftsLexGo .top (' ' :: rest) = ftsLexGo .top rest := by
  simp [ftsLexGo]

/-- The sanitized form of a list of quote-free tokens lexes as exactly
those tokens, each one a literal phrase. -/
theorem sanitize_literal_aux : ∀ ts : List String, (∀ t ∈ ts, '"' ∉ t.data) →
    ftsLexGo .top (joinSpace (ts.map (fun t => "\"" ++ t ++ "\""))).data
      = some (ts.map (fun t => QueryItem.phrase t)) := by
  intro ts
  induction ts with
  | nil =>
    intro _
    rfl
  | cons t ts ih =>
    intro h
    cases ts with
    | nil =>
      show ftsLexGo .top ("\"" ++ t ++ "\"").data = _
      have hdata : ("\"" ++ t ++ "\"").data = '"' :: (t.data ++ '"' :: []) := by
        rw [String.data_append, String.data_append]
        simp
      rw [hdata, ftsLexGo_open,
        ftsLexGo_scan t.data (h t (List.mem_cons_self t [])) [] [] (by simp)]
      rfl
    | cons t2 ts' =>
      show ftsLexGo .top (("\"" ++ t ++ "\"") ++ " "
          ++ joinSpace ((t2 :: ts').map (fun t => "\"" ++ t ++ "\""))).data = _
      have hdata : (("\"" ++ t ++ "\"") ++ " "
          ++ joinSpace ((t2 :: ts').map (fun t => "\"" ++ t ++ "\""))).data
          = '"' :: (t.data ++ '"' ::
            (' ' :: (joinSpace ((t2 :: ts').map (fun t => "\"" ++ t ++ "\""))).data)) := by
        rw [String.data_append, String.data_append, String.data_append, String.data_append]
        simp
      rw [hdata, ftsLexGo_open,
        ftsLexGo_scan t.data (h t (List.mem_cons_self t _)) []
          (' ' :: (joinSpace ((t2 :: ts').map (fun t => "\"" ++ t ++ "\""))).data)
          (by simp),
        ftsLexGo_space,
        ih (fun u hu => h u (List.mem_cons_of_mem t hu))]
      rfl

/-- Each quote-free whitespace token of the query is matched as one
literal phrase by the sanitized query. -/
theorem sanitizeFtsQuery_literal (q : String) (hq : ∀ t ∈ pyTokens q, '"' ∉ t.data) :
    ftsLex (sanitizeFtsQuery q) = some ((pyTokens q).map (fun t => QueryItem.phrase t)) := by
  unfold ftsLex sanitizeFtsQuery
  exact sanitize_literal_aux (pyTokens q) hq

/-- When the target exists, the row update returns is the re-read row. -/
theorem update_snd (s : Store) (i : Nat) (c? : Option String)
    (t? : Option (List String)) (l? : Option (List Nat)) (node : Node)
    (hgi : getNode s i = some node) :
    (update s i c? t? l?).2 = getNode (update s i c? t? l?).1 i := by
  unfold update
  rw [hgi]

/-- remember never creates a self-link (no duplicate-freedom needed). -/
theorem noSelf_remember (s : Store) (hWF : WF s) (now : Nat) (c : String)
    (tg : List String) (ls : List Nat) (srcLbl : String) :
    NoSelfLinks (remember s now c tg ls srcLbl).1 := by
  obtain ⟨hIN, hIB, hLN, hNS, hND, hSym⟩ := hWF
  have hub : ∀ m ∈ s.nodes, m.id ≠ s.nextId := fun m hm => Nat.ne_of_lt (hIB m hm)
  have hfresh : getNode s s.nextId = none :=
    getNode_eq_none.mpr (fun n hn => hub n hn)
  have hVnotNext : s.nextId ∉ ls.filter (fun l => (getNode s l).isSome) := by
    intro hmem
    have h2 := (List.mem_filter.mp hmem).2
    rw [hfresh] at h2
    simp at h2
  have hchar := remember_row_char s hIN hIB now c tg ls srcLbl
  intro n hn
  rcases hchar n hn with rfl | ⟨m, hm, hid, hcase⟩
  · exact hVnotNext
  · rcases hcase with ⟨rfl, hmemV⟩ | ⟨heqn, -⟩
    · intro hmem
      rw [fAdd_id] at hmem
      rcases (mem_fAdd_links _ _ _).mp hmem with h | h
      · exact hNS m hm h
      · exact hub m hm h
    · rw [heqn]
      exact hNS m hm

/-- update never creates a self-link (no duplicate-freedom needed). -/
theorem noSelf_update (s : Store) (hWF : WF s) (i : Nat) (c? : Option String)
    (t? : Option (List String)) (l? : Option (List Nat)) :
    NoSelfLinks (update s i c? t? l?).1 := by
  obtain ⟨hIN, hIB, hLN, hNS, hND, hSym⟩ := hWF
  cases hgi : getNode s i with
  | none =>
    rw [update_missing s i c? t? l? hgi]
    exact hNS
  | some node =>
    cases l? with
    | none =>
      have hchar := update_nolinks_row_char s hIN i c? t? node hgi
      intro n hn
      obtain ⟨m, hm, hid, hlinks⟩ := hchar n hn
      rw [hlinks, ← hid]
      exact hNS m hm
    | some req =>
      have hchar := update_links_row_char s hIN i c? t? req node hgi
      intro n hn
      rcases hchar n hn with ⟨heqn, hni'⟩ | ⟨m, hm, hid, hne, hcase⟩
      · intro hmem
        have h2 : n.links = validNew s i req := by rw [heqn]
        rw [h2, hni'] at hmem
        exact self_not_mem_validNew s i req hmem
      · rcases hcase with ⟨heqn, -⟩ | ⟨heqn, -⟩ | ⟨heqn, -, -⟩
        · rw [heqn, fRem_id]
          intro hmem
          exact hNS m hm (mem_of_mem_fRem hmem)
        · rw [heqn, fAdd_id]
          intro hmem
          rcases (mem_fAdd_links _ _ _).mp hmem with h | h
          · exact hNS m hm h
          · exact hne (by rw [← hid]; exact h)
        · rw [heqn]
          exact hNS m hm

/-- Claim C1, counterexample to the claim as stated: in the
single-threaded sequence remember A, remember B, update B with the
duplicated link request [0, 0], update A dropping all links, every
operation completes, yet afterwards node 1 still lists node 0 while node
0 no longer lists node 1: link symmetry is broken, because the stored
duplicate makes the single back-link removal (Python list.remove)
incomplete. -/
theorem C1_counterexample :
    (getNode exDupDrop 1).map Node.links = some [0]
      ∧ (getNode exDupDrop 0).map Node.links = some []
      ∧ ¬ SymLinks exDupDrop := by
  decide

/-- Claim C1 (amended: requested link lists must be duplicate-free, as
the spec's no-duplicates invariant presumes): in a well-formed store,
link symmetry holds after every completed create, update and delete
whose requested link list (if any) has pairwise distinct ids; in
particular creating or updating a node with a link to an existing node B
adds the acting node's id to B's link list, and updating a node's links
to drop a neighbour B removes the back-link from B. -/
theorem C1_link_symmetry :
    (∀ (s : Store) (now : Nat) (c : String) (tg : List String) (ls : List Nat)
        (srcLbl : String), WF s → ls.Nodup →
        SymLinks (remember s now c tg ls srcLbl).1)
    ∧ (∀ (s : Store) (i : Nat) (c? : Option String) (t? : Option (List String))
        (l? : Option (List Nat)), WF s → (∀ req, l? = some req → req.Nodup) →
        SymLinks (update s i c? t? l?).1)
    ∧ (∀ (s : Store) (i : Nat), WF s → SymLinks (forget s i).1)
    ∧ (∀ (s : Store) (now : Nat) (c : String) (tg : List String) (ls : List Nat)
        (srcLbl : String) (b : Nat) (nb : Node), WF s → getNode s b = some nb →
        b ∈ ls → ∃ nb', getNode (remember s now c tg ls srcLbl).1 b = some nb'
          ∧ s.nextId ∈ nb'.links)
    ∧ (∀ (s : Store) (i b : Nat) (c? : Option String) (t? : Option (List String))
        (req : List Nat) (ni nb : Node), WF s → getNode s i = some ni →
        getNode s b = some nb → b ∈ req → b ≠ i →
        ∃ nb', getNode (update s i c? t? (some req)).1 b = some nb' ∧ i ∈ nb'.links)
    ∧ (∀ (s : Store) (i b : Nat) (c? : Option String) (t? : Option (List String))
        (req : List Nat) (ni : Node), WF s → getNode s i = some ni →
        b ∈ ni.links → b ∉ req →
        ∃ nb', getNode (update s i c? t? (some req)).1 b = some nb' ∧ i ∉ nb'.links) := by
  refine ⟨?_, ?_, ?_, ?_, ?_, ?_⟩
  · intro s now c tg ls srcLbl hWF hls
    exact (wf_remember s hWF now c tg ls srcLbl hls).2.2.2.2.2
  · intro s i c? t? l? hWF hreq
    exact (wf_update s hWF i c? t? l? hreq).2.2.2.2.2
  · intro s i hWF
    exact (wf_forget s hWF i).2.2.2.2.2
  · intro s now c tg ls srcLbl b nb hWF hb hbin
    have hbV : b ∈ ls.filter (fun l => (getNode s l).isSome) :=
      List.mem_filter.mpr ⟨hbin, by rw [hb]; rfl⟩
    refine ⟨fAdd s.nextId nb, ?_, fAdd_mem _ _⟩
    rw [getNode_remember, if_pos hbV, hb]
    rfl
  · intro s i b c? t? req ni nb hWF hni hnb hbreq hbi
    obtain ⟨hIN, hIB, hLN, hNS, hND, hSym⟩ := hWF
    have hbV : b ∈ validNew s i req :=
      mem_validNew.mpr ⟨hbreq, hbi, by rw [hnb]; rfl⟩
    by_cases hbold : b ∈ ni.links
    · have hbR : b ∉ removedSet ni (validNew s i req) := by
        intro h
        exact (mem_removedSet.mp h).2 hbV
      have hbA : b ∉ addedSet ni (validNew s i req) := by
        intro h
        exact (mem_addedSet.mp h).2 hbold
      refine ⟨nb, ?_, ?_⟩
      · rw [getNode_update_links s i c? t? req ni hni b, if_neg hbi, if_neg hbR,
          if_neg hbA]
        exact hnb
      · have hs0 := hSym ni (getNode_mem hni).1 nb (getNode_mem hnb).1
          (by rw [(getNode_mem hnb).2]; exact hbold)
        rw [(getNode_mem hni).2] at hs0
        exact hs0
    · have hbA : b ∈ addedSet ni (validNew s i req) :=
        mem_addedSet.mpr ⟨hbV, hbold⟩
      have hbR : b ∉ removedSet ni (validNew s i req) := by
        intro h
        exact hbold (mem_removedSet.mp h).1
      refine ⟨fAdd i nb, ?_, fAdd_mem _ _⟩
      rw [getNode_update_links s i c? t? req ni hni b, if_neg hbi, if_neg hbR,
        if_pos hbA, hnb]
      rfl
  · intro s i b c? t? req ni hWF hni hbin hbreq
    obtain ⟨hIN, hIB, hLN, hNS, hND, hSym⟩ := hWF
    have hbi : b ≠ i := by
      intro hrfl
      subst hrfl
      exact hNS ni (getNode_mem hni).1 ((getNode_mem hni).2 ▸ hbin)
    have hbV : b ∉ validNew s i req := fun h => hbreq (mem_validNew.mp h).1
    have hbR : b ∈ removedSet ni (validNew s i req) :=
      mem_removedSet.mpr ⟨hbin, hbV⟩
    obtain ⟨nb, hnb⟩ := Option.isSome_iff_exists.mp
      (hND ni (getNode_mem hni).1 b hbin)
    refine ⟨fRem i nb, ?_, ?_⟩
    · rw [getNode_update_links s i c? t? req ni hni b, if_neg hbi, if_pos hbR, hnb]
      rfl
    · exact not_mem_fRem_self (hLN nb (getNode_mem hnb).1)

/-- Claim C2, counterexample to the claim as stated: the store exDup
satisfies link symmetry, node 0 exists, yet after forget 0 completes the
surviving node 1 still lists the deleted id 0 (the duplicate entry [0, 0]
defeats the single first-occurrence removal). -/
theorem C2_counterexample :
    SymLinks exDup ∧ (getNode exDup 0).isSome = true
      ∧ getNode (forget exDup 0).1 0 = none
      ∧ (getNode (forget exDup 0).1 1).map Node.links = some [0] := by
  decide

/-- Claim C2 (amended: link lists must also be duplicate-free, as the
spec's no-duplicates invariant presumes): starting from a state
satisfying link symmetry whose link lists have pairwise distinct ids,
after forget completes on an existing node x, x's row is gone and no
surviving node's link list contains x's id. -/
theorem C2_no_dangling (s : Store) (x : Nat) (hSym : SymLinks s)
    (hLN : LinksNodup s) (hx : (getNode s x).isSome = true) :
    getNode (forget s x).1 x = none
      ∧ ∀ (j : Nat) (nj : Node), getNode (forget s x).1 j = some nj → x ∉ nj.links := by
  obtain ⟨nx, hnx⟩ := Option.isSome_iff_exists.mp hx
  have hnodup : nx.links.Nodup := hLN nx (getNode_mem hnx).1
  have hpt := getNode_forget s x nx hnx hnodup
  refine ⟨by rw [hpt x, if_pos rfl], ?_⟩
  intro j nj hj
  rw [hpt j] at hj
  by_cases hjx : j = x
  · rw [if_pos hjx] at hj
    cases hj
  · rw [if_neg hjx] at hj
    by_cases hjl : j ∈ nx.links
    · rw [if_pos hjl] at hj
      cases hg : getNode s j with
      | none =>
        rw [hg] at hj
        cases hj
      | some m =>
        rw [hg] at hj
        have hm : fRem x m = nj := by simpa using hj
        rw [← hm]
        exact not_mem_fRem_self (hLN m (getNode_mem hg).1)
    · rw [if_neg hjl] at hj
      intro hmem
      have hjid : nj.id = j := (getNode_mem hj).2
      have hs0 := hSym nj (getNode_mem hj).1 nx (getNode_mem hnx).1
        (by rw [(getNode_mem hnx).2]; exact hmem)
      rw [hjid] at hs0
      exact hjl hs0

/-- Witness for C2 on the concrete chain store: forgetting node 3 leaves
no reference to it. -/
theorem C2_witness :
    getNode (forget chainD 3).1 3 = none
      ∧ ∀ (j : Nat) (nj : Node), getNode (forget chainD 3).1 j = some nj → 3 ∉ nj.links :=
  C2_no_dangling chainD 3 (by decide) (by decide) (by decide)

/-- Claim C3, counterexample to the claim as stated: remembering a node
with the duplicated link request [0, 0] (node 0 existing) stores the
duplicate list [0, 0] verbatim. -/
theorem C3_counterexample :
    ((remember exA 1 "node B" [] [0, 0] "").2).map Node.links = some [0, 0]
      ∧ ¬ (([0, 0] : List Nat).Nodup) := by
  decide

/-- Claim C3 (amended: the stored link list is the validated requested
list itself, so it is duplicate-free whenever the request is, and the
back-link maintenance never introduces duplicates into any list; a
request repeating an existing id is stored verbatim with the
duplicate). -/
theorem C3_no_duplicate_links :
    (∀ (s : Store) (now : Nat) (c : String) (tg : List String) (ls : List Nat)
        (srcLbl : String) (n : Node), WF s → ls.Nodup →
        (remember s now c tg ls srcLbl).2 = some n → n.links.Nodup)
    ∧ (∀ (s : Store) (i : Nat) (c? : Option String) (t? : Option (List String))
        (req : List Nat) (n : Node), req.Nodup →
        (update s i c? t? (some req)).2 = some n → n.links.Nodup)
    ∧ (∀ (s : Store) (now : Nat) (c : String) (tg : List String) (ls : List Nat)
        (srcLbl : String), WF s → ls.Nodup →
        LinksNodup (remember s now c tg ls srcLbl).1)
    ∧ (∀ (s : Store) (i : Nat) (c? : Option String) (t? : Option (List String))
        (l? : Option (List Nat)), WF s → (∀ req, l? = some req → req.Nodup) →
        LinksNodup (update s i c? t? l?).1) := by
  refine ⟨?_, ?_, ?_, ?_⟩
  · intro s now c tg ls srcLbl n hWF hls hret
    rw [remember_ret s hWF.2.1 now c tg ls srcLbl] at hret
    injection hret with h
    rw [← h, freshNode_links]
    exact hls.filter _
  · intro s i c? t? req n hreq hret
    cases hgi : getNode s i with
    | none =>
      rw [update_missing s i c? t? (some req) hgi] at hret
      cases hret
    | some node =>
      rw [update_snd s i c? t? (some req) node hgi] at hret
      rw [getNode_update_links s i c? t? req node hgi i, if_pos rfl] at hret
      injection hret with h
      have hl : n.links = validNew s i req := by rw [← h]
      rw [hl]
      exact hreq.filter _
  · intro s now c tg ls srcLbl hWF hls
    exact (wf_remember s hWF now c tg ls srcLbl hls).2.2.1
  · intro s i c? t? l? hWF hreq
    exact (wf_update s hWF i c? t? l? hreq).2.2.1

/-- Claim C4 (confirmed): a stored link list never contains its own
node's id.  The validated replacement of update drops the node's own id,
the fresh id of remember cannot resolve during validation, and back-link
writes only target other rows; all three operations preserve the
no-self-links invariant. -/
theorem C4_no_self_links :
    (∀ (s : Store) (i : Nat) (c? : Option String) (t? : Option (List String))
        (req : List Nat) (n : Node),
        (update s i c? t? (some req)).2 = some n → i ∉ n.links)
    ∧ (∀ (s : Store) (now : Nat) (c : String) (tg : List String) (ls : List Nat)
        (srcLbl : String) (n : Node), WF s →
        (remember s now c tg ls srcLbl).2 = some n → n.id ∉ n.links)
    ∧ (∀ (s : Store) (now : Nat) (c : String) (tg : List String) (ls : List Nat)
        (srcLbl : String), WF s → NoSelfLinks (remember s now c tg ls srcLbl).1)
    ∧ (∀ (s : Store) (i : Nat) (c? : Option String) (t? : Option (List String))
        (l? : Option (List Nat)), WF s → NoSelfLinks (update s i c? t? l?).1)
    ∧ (∀ (s : Store) (i : Nat), WF s → NoSelfLinks (forget s i).1) := by
  refine ⟨?_, ?_, ?_, ?_, ?_⟩
  · intro s i c? t? req n hret
    cases hgi : getNode s i with
    | none =>
      rw [update_missing s i c? t? (some req) hgi] at hret
      cases hret
    | some node =>
      rw [update_snd s i c? t? (some req) node hgi] at hret
      rw [getNode_update_links s i c? t? req node hgi i, if_pos rfl] at hret
      injection hret with h
      have hl : n.links = validNew s i req := by rw [← h]
      rw [hl]
      exact self_not_mem_validNew s i req
  · intro s now c tg ls srcLbl n hWF hret
    rw [remember_ret s hWF.2.1 now c tg ls srcLbl] at hret
    injection hret with h
    rw [← h, freshNode_links, freshNode_id]
    intro hmem
    have hfresh : getNode s s.nextId = none :=
      getNode_eq_none.mpr (fun m hm => Nat.ne_of_lt (hWF.2.1 m hm))
    have h2 := (List.mem_filter.mp hmem).2
    rw [hfresh] at h2
    simp at h2
  · intro s now c tg ls srcLbl hWF
    exact noSelf_remember s hWF now c tg ls srcLbl
  · intro s i c? t? l? hWF
    exact noSelf_update s hWF i c? t? l?
  · intro s i hWF
    exact (wf_forget s hWF i).2.2.2.1

theorem connections_missing (s : Store) (i d now : Nat) (h : getNode s i = none) :
    connections s i d now = (s, none) := by
  unfold connections
  rw [h]

theorem connections_some (s : Store) (i d now : Nat) (n : Node)
    (h : getNode s i = some n) :
    connections s i d now =
      (updateAccess s now ((bfsLoop s d [(i, 0)] [i] []).map (fun p => p.1)),
       some ((bfsLoop s d [(i, 0)] [i] []).filterMap
         (fun p => (getNode (updateAccess s now
             ((bfsLoop s d [(i, 0)] [i] []).map (fun p => p.1))) p.1).map
           (fun nn => (nn, p.2))))) := by
  unfold connections
  rw [h]

/-- Re-reading the visit order keeps ids: the output ids form a sublist
of the visit order's ids. -/
theorem refetch_ids_sublist (s1 : Store) (order : List (Nat × Nat)) :
    List.Sublist
      ((order.filterMap
        (fun p => (getNode s1 p.1).map (fun nn => (nn, p.2)))).map (fun p => p.1.id))
      (order.map (fun p => p.1)) := by
  induction order with
  | nil => simp
  | cons p order ih =>
    cases hg : getNode s1 p.1 with
    | none =>
      rw [List.filterMap_cons]
      simp only [hg, Option.map_none', List.map_cons]
      exact ih.trans (List.sublist_cons_self _ _)
    | some nn =>
      rw [List.filterMap_cons]
      simp only [hg, Option.map_some', List.map_cons]
      rw [(getNode_mem hg).2]
      exact ih.cons₂ _

set_option maxRecDepth 8000 in
/-- Claim C5 (confirmed): connections is the bounded breadth-first
traversal the spec describes.  Depth 0 returns exactly the start node at
distance 0; the output always begins with the start node at distance 0;
no node appears twice; no recorded distance exceeds the bound; and on
the spec's chain A-B-C-D, connections from A with depth 2 returns
exactly A at 0, B at 1, C at 2 and excludes D. -/
theorem C5_bfs_traversal :
    (∀ (s : Store) (i now : Nat) (n : Node), getNode s i = some n →
      (connections s i 0 now).2 = some [(bump now n, 0)])
    ∧ (∀ (s : Store) (i d now : Nat) (n : Node), getNode s i = some n →
      ∃ p out, (connections s i d now).2 = some (p :: out) ∧ p.1.id = i ∧ p.2 = 0)
    ∧ (∀ (s : Store) (i d now : Nat) (out : List (Node × Nat)),
        (connections s i d now).2 = some out → (out.map (fun p => p.1.id)).Nodup)
    ∧ (∀ (s : Store) (i d now : Nat) (out : List (Node × Nat)),
        (connections s i d now).2 = some out → ∀ p ∈ out, p.2 ≤ d)
    ∧ ((connections chainD 0 2 9).2).map (fun l => l.map (fun p => (p.1.id, p.2)))
        = some [(0, 0), (1, 1), (2, 2)] := by
  refine ⟨?_, ?_, ?_, ?_, ?_⟩
  · intro s i now n h
    rw [connections_some s i 0 now n h]
    simp only
    rw [bfsLoop_depth0 s i n h]
    have hup := getNode_updateAccess [i] now s i (by simp)
    simp only [List.map_cons, List.map_nil, List.filterMap_cons, List.filterMap_nil]
    rw [hup]
    simp [h]
  · intro s i d now n h
    obtain ⟨ext, hstart⟩ := bfsLoop_start s d i n h
    rw [connections_some s i d now n h]
    simp only
    rw [hstart]
    have hidm : i ∈ ((i, 0) :: ext).map (fun p : Nat × Nat => p.1) := by simp
    have hnd : (((i, 0) :: ext).map (fun p : Nat × Nat => p.1)).Nodup := by
      have hbn := bfs_order_nodup s d i
      rw [hstart] at hbn
      exact hbn
    have hup := getNode_updateAccess (((i, 0) :: ext).map (fun p : Nat × Nat => p.1))
      now s i hnd
    rw [List.filterMap_cons]
    have hf : (getNode (updateAccess s now
        (((i, 0) :: ext).map (fun p : Nat × Nat => p.1))) i).map
          (fun nn => (nn, (0 : Nat))) = some (bump now n, 0) := by
      rw [hup, if_pos hidm, h]
      rfl
    simp only [hf]
    refine ⟨(bump now n, 0), _, rfl, ?_, rfl⟩
    show (bump now n).id = i
    rw [show (bump now n).id = n.id from rfl, (getNode_mem h).2]
  · intro s i d now out hconn
    cases hg : getNode s i with
    | none =>
      rw [connections_missing s i d now hg] at hconn
      cases hconn
    | some n =>
      rw [connections_some s i d now n hg] at hconn
      injection hconn with h
      rw [← h]
      exact (bfs_order_nodup s d i).sublist (refetch_ids_sublist _ _)
  · intro s i d now out hconn p hp
    cases hg : getNode s i with
    | none =>
      rw [connections_missing s i d now hg] at hconn
      cases hconn
    | some n =>
      rw [connections_some s i d now n hg] at hconn
      injection hconn with h
      rw [← h] at hp
      obtain ⟨q, hq, hfq⟩ := List.mem_filterMap.mp hp
      have hq2 : p.2 = q.2 := by
        obtain ⟨nn, -, hfnn⟩ := Option.map_eq_some'.mp hfq
        rw [← hfnn]
      rw [hq2]
      exact bfsLoop_depth_le s d [(i, 0)] [i] [] (by simp) (by simp) q hq
  · simp [connections, bfsLoop_cons, bfsLoop_nil,
      enqueueNew, chainD, chainC, chainB, chainA, initStore,
      remember, addBackLink, updateRow, getNode, updateAccess, bump,
      -Prod.mk_zero_zero, -Prod.mk_one_one]

/-- Claim C6, counterexample to the claim as stated: the double quote is
itself a character the FTS5 query language interprets (a string
delimiter), and the sanitizer does not neutralize it.  For the
single-token query ab"cd the sanitized query is "ab"cd", which is not
lexed as the literal phrase ab"cd (it is malformed: the embedded quote
closes the string early and the trailing quote is unterminated). -/
theorem C6_counterexample :
    sanitizeFtsQuery "ab\"cd" = "\"ab\"cd\""
      ∧ ftsLex (sanitizeFtsQuery "ab\"cd") = none
      ∧ ¬ ftsLex (sanitizeFtsQuery "ab\"cd") = some [QueryItem.phrase "ab\"cd"] := by
  decide

/-- Claim C6 (amended: every operator character except the double quote
is neutralized): recall tokenizes the query on whitespace and wraps each
token in double quotes, so every token free of double quotes — whatever
hyphens, boolean connectives, negation, field-selector colons or other
operator characters it contains — is read by the query language as one
literal phrase of exactly that token; a token containing a double quote
is not neutralized.  Concretely the query flood-memory becomes the
single literal phrase flood-memory, and so do NOT, -, y:z and OR. -/
theorem C6_literal_tokens :
    (∀ q : String, (∀ t ∈ pyTokens q, '"' ∉ t.data) →
      ftsLex (sanitizeFtsQuery q) = some ((pyTokens q).map (fun t => QueryItem.phrase t)))
    ∧ ftsLex (sanitizeFtsQuery "flood-memory") = some [QueryItem.phrase "flood-memory"]
    ∧ ftsLex (sanitizeFtsQuery "NOT x - y:z OR hello") = some
        [QueryItem.phrase "NOT", QueryItem.phrase "x", QueryItem.phrase "-",
         QueryItem.phrase "y:z", QueryItem.phrase "OR", QueryItem.phrase "hello"] := by
  refine ⟨sanitizeFtsQuery_literal, by decide, by decide⟩

/-- Claim C7 (confirmed): with a non-empty tag filter, recall keeps, in
unchanged relative order, exactly the candidates whose tag list contains
every requested tag, truncates to the first limit of them and returns
their re-read rows; on the spec's example stores, recall by tag python
returns exactly the first two nodes and recall by python and testing
exactly the first one. -/
theorem C7_recall_tag_filter :
    (∀ (s : Store) (fts : String → List Node) (q : String) (tags : List String)
        (lim : Int) (now : Nat), tags ≠ [] →
        ∃ sel, sel = pySliceTo ((baseCandidates s fts q).filter
            (fun n => tags.all (fun t => n.tags.contains t))) lim
          ∧ List.Sublist sel (baseCandidates s fts q)
          ∧ (∀ n ∈ sel, tags.all (fun t => n.tags.contains t) = true)
          ∧ («recall» s fts q tags lim now).2
              = (sel.map (fun n => n.id)).map
                  (getNode (updateAccess s now (sel.map (fun n => n.id)))))
    ∧ (((«recall» tagStore (fun _ => []) "" ["python"] 10 7).2).map
        (fun o => o.map Node.id) = [some 0, some 1])
    ∧ (((«recall» tagStore (fun _ => []) "" ["python", "testing"] 10 7).2).map
        (fun o => o.map Node.id) = [some 0]) := by
  refine ⟨?_, by decide, by decide⟩
  intro s fts q tags lim now htags
  refine ⟨pySliceTo ((baseCandidates s fts q).filter
      (fun n => tags.all (fun t => n.tags.contains t))) lim, rfl, ?_, ?_, ?_⟩
  · exact (pySliceTo_sublist _ _).trans (List.filter_sublist _)
  · intro n hn
    exact (List.mem_filter.mp ((pySliceTo_sublist _ _).mem hn)).2
  · unfold «recall»
    rw [if_neg (fun h => htags h.2)]
    simp only
    unfold recallCandidates
    rw [if_pos htags]

/-- Claim C8 (confirmed): a freshly created node has access_count 0;
every record recall or connections returns has its access_count bumped
by exactly one and its last_accessed set to the call's time, and the
returned records reflect the bump; create, update and delete never touch
the access statistics of any existing (surviving) row. -/
theorem C8_access_tracking :
    (∀ (s : Store) (now : Nat) (c : String) (tg : List String) (ls : List Nat)
        (srcLbl : String) (n : Node), WF s →
        (remember s now c tg ls srcLbl).2 = some n → n.accessCount = 0)
    ∧ (∀ (s : Store) (fts : String → List Node) (q : String) (tags : List String)
        (lim : Int) (now : Nat), WF s →
        (∀ q', ((fts q').map Node.id).Nodup) →
        (∀ q', ∀ n ∈ fts q', n ∈ s.nodes) →
        ∀ o ∈ («recall» s fts q tags lim now).2, ∃ n₀ n₁, o = some n₁
          ∧ getNode s n₁.id = some n₀
          ∧ n₁.accessCount = n₀.accessCount + 1 ∧ n₁.lastAccessed = now)
    ∧ (∀ (s : Store) (i d now : Nat) (out : List (Node × Nat)),
        (connections s i d now).2 = some out →
        ∀ p ∈ out, ∃ n₀, getNode s p.1.id = some n₀
          ∧ p.1.accessCount = n₀.accessCount + 1 ∧ p.1.lastAccessed = now)
    ∧ (∀ (s : Store) (now : Nat) (c : String) (tg : List String) (ls : List Nat)
        (srcLbl : String) (j : Nat) (m : Node), getNode s j = some m →
        (getNode (remember s now c tg ls srcLbl).1 j).map
            (fun n => (n.accessCount, n.lastAccessed))
          = some (m.accessCount, m.lastAccessed))
    ∧ (∀ (s : Store) (i : Nat) (c? : Option String) (t? : Option (List String))
        (l? : Option (List Nat)) (j : Nat),
        (getNode (update s i c? t? l?).1 j).map (fun n => (n.accessCount, n.lastAccessed))
          = (getNode s j).map (fun n => (n.accessCount, n.lastAccessed)))
    ∧ (∀ (s : Store) (i j : Nat) (m : Node), LinksNodup s → j ≠ i →
        getNode s j = some m →
        (getNode (forget s i).1 j).map (fun n => (n.accessCount, n.lastAccessed))
          = some (m.accessCount, m.lastAccessed)) := by
  refine ⟨?_, ?_, ?_, ?_, ?_, ?_⟩
  · intro s now c tg ls srcLbl n hWF hret
    rw [remember_ret s hWF.2.1 now c tg ls srcLbl] at hret
    injection hret with h
    rw [← h]
    rfl
  · intro s fts q tags lim now hWF hftsN hftsM o ho
    unfold «recall» at ho
    by_cases hempty : q = "" ∧ tags = []
    · rw [if_pos hempty] at ho
      simp at ho
    · rw [if_neg hempty] at ho
      simp only at ho
      obtain ⟨nid, hnid, hno⟩ := List.mem_map.mp ho
      obtain ⟨nd, hnd, hnid2⟩ := List.mem_map.mp hnid
      have hndc : nd ∈ recallCandidates s fts q tags := (pySliceTo_sublist _ _).mem hnd
      have hndrows : nd ∈ s.nodes := recallCandidates_mem s fts hftsM q tags nd hndc
      have hfind : getNode s nd.id = some nd := mem_getNode hWF.1 hndrows
      have hidsN : ((pySliceTo (recallCandidates s fts q tags) lim).map
          (fun n => n.id)).Nodup :=
        (recallCandidates_nodup s hWF.1 fts hftsN q tags).sublist
          ((pySliceTo_sublist _ _).map _)
      have hup := getNode_updateAccess
        ((pySliceTo (recallCandidates s fts q tags) lim).map (fun n => n.id))
        now s nid hidsN
      rw [if_pos hnid] at hup
      refine ⟨nd, bump now nd, ?_, ?_, rfl, rfl⟩
      · rw [← hno, hup, ← hnid2, hfind]
        rfl
      · show getNode s (bump now nd).id = some nd
        rw [show (bump now nd).id = nd.id from rfl, hfind]
  · intro s i d now out hconn p hp
    cases hg : getNode s i with
    | none =>
      rw [connections_missing s i d now hg] at hconn
      cases hconn
    | some n =>
      rw [connections_some s i d now n hg] at hconn
      injection hconn with h
      rw [← h] at hp
      obtain ⟨q, hq, hfq⟩ := List.mem_filterMap.mp hp
      obtain ⟨nn, hnn, hfnn⟩ := Option.map_eq_some'.mp hfq
      have hqid : q.1 ∈ (bfsLoop s d [(i, 0)] [i] []).map (fun p => p.1) :=
        List.mem_map_of_mem _ hq
      have hup := getNode_updateAccess
        ((bfsLoop s d [(i, 0)] [i] []).map (fun p => p.1)) now s q.1
        (bfs_order_nodup s d i)
      rw [if_pos hqid] at hup
      rw [hup] at hnn
      obtain ⟨n₀, hn₀, hbn⟩ := Option.map_eq_some'.mp hnn
      have hp1 : p.1 = nn := by rw [← hfnn]
      refine ⟨n₀, ?_, ?_, ?_⟩
      · rw [hp1, ← hbn]
        show getNode s (bump now n₀).id = some n₀
        rw [show (bump now n₀).id = n₀.id from rfl, (getNode_mem hn₀).2]
        exact hn₀
      · rw [hp1, ← hbn]
        rfl
      · rw [hp1, ← hbn]
        rfl
  · intro s now c tg ls srcLbl j m hm
    exact getNode_remember_proj (fun n => (n.accessCount, n.lastAccessed))
      (fun n v => rfl) s now c tg ls srcLbl j m hm
  · intro s i c? t? l? j
    exact getNode_update_proj (fun n => (n.accessCount, n.lastAccessed))
      (fun c? t? n => by unfold ctFun; cases c? <;> cases t? <;> rfl)
      (fun n v => rfl) s i c? t? l? j
  · intro s i j m hLN hji hm
    cases hgi : getNode s i with
    | none =>
      have hfg : forget s i = (s, none) := by
        unfold forget
        rw [hgi]
      rw [hfg, hm]
      rfl
    | some node =>
      exact getNode_forget_proj (fun n => (n.accessCount, n.lastAccessed))
        (fun n v => rfl) s i node hgi
        (hLN node (getNode_mem hgi).1) j m hm hji

/-- Claim C9 (confirmed): a content-only update changes nothing except
the target's content field (in particular its tags and links and every
other row are untouched); a links-only update leaves the target's
content and tags unchanged; and no update call ever changes any row's
source field. -/
theorem C9_update_frame :
    (∀ (s : Store) (i : Nat) (c : String) (j : Nat), j ≠ i →
        getNode (update s i (some c) none none).1 j = getNode s j)
    ∧ (∀ (s : Store) (i : Nat) (c : String) (n : Node), getNode s i = some n →
        (update s i (some c) none none).2 = some { n with content := c })
    ∧ (∀ (s : Store) (i : Nat) (req : List Nat) (n : Node), getNode s i = some n →
        ∃ n', (update s i none none (some req)).2 = some n'
          ∧ n'.content = n.content ∧ n'.tags = n.tags ∧ n'.id = n.id)
    ∧ (∀ (s : Store) (i : Nat) (c? : Option String) (t? : Option (List String))
        (l? : Option (List Nat)) (j : Nat),
        (getNode (update s i c? t? l?).1 j).map Node.source
          = (getNode s j).map Node.source) := by
  refine ⟨?_, ?_, ?_, ?_⟩
  · intro s i c j hji
    cases hgi : getNode s i with
    | none => rw [update_missing s i (some c) none none hgi]
    | some node =>
      rw [getNode_update_nolinks s i (some c) none node hgi j, if_neg hji]
  · intro s i c n hni
    rw [update_snd s i (some c) none none n hni]
    rw [getNode_update_nolinks s i (some c) none n hni i, if_pos rfl, hni]
    rfl
  · intro s i req n hni
    refine ⟨{ ctFun none none n with links := validNew s i req }, ?_, rfl, rfl, rfl⟩
    rw [update_snd s i none none (some req) n hni]
    rw [getNode_update_links s i none none req n hni i, if_pos rfl]
  · intro s i c? t? l? j
    exact getNode_update_proj Node.source
      (fun c? t? n => ctFun_source c? t? n) (fun n v => rfl) s i c? t? l? j

/-- Claim C10 (confirmed): recall passes the caller's limit straight to
a Python slice, so a negative limit keeps all candidates except the last
|limit| of them (Python negative-slice semantics); for the spec's tagged
store, recall by tag python with limit -1 returns exactly the
first-ranked candidate and drops the last. -/
theorem C10_recall_negative_limit :
    (∀ (s : Store) (fts : String → List Node) (q : String) (tags : List String)
        (lim : Int) (now : Nat), lim < 0 → ¬ (q = "" ∧ tags = []) →
        («recall» s fts q tags lim now).2
          = (((recallCandidates s fts q tags).take
                ((recallCandidates s fts q tags).length - (-lim).toNat)).map
              (fun n => n.id)).map (getNode («recall» s fts q tags lim now).1)
        ∧ («recall» s fts q tags lim now).2.length
            = (recallCandidates s fts q tags).length - (-lim).toNat)
    ∧ (((«recall» tagStore (fun _ => []) "" ["python"] (-1) 7).2).map
        (fun o => o.map Node.id) = [some 0]) := by
  refine ⟨?_, by decide⟩
  intro s fts q tags lim now hlim hne
  have hslice : pySliceTo (recallCandidates s fts q tags) lim
      = (recallCandidates s fts q tags).take
          ((recallCandidates s fts q tags).length - (-lim).toNat) := by
    unfold pySliceTo
    rw [if_neg (by omega)]
  constructor
  · unfold «recall»
    rw [if_neg hne]
    simp only
    rw [hslice]
  · unfold «recall»
    rw [if_neg hne]
    simp only
    rw [List.length_map, List.length_map, hslice, List.length_take]
    exact Nat.min_eq_left (Nat.sub_le _ _)
